import Mathlib

/-!
Verification of the on-call rota engine (`streamlitrota.py`).

Shallow embedding conventions:
* Dates are integers counting days from an epoch that falls on a Monday, so
  that `d % 7` coincides with Python's `date.weekday()` (0 = Monday, ...,
  4 = Friday, 5 = Saturday, 6 = Sunday).  Date subtraction
  `(a - b).days` is integer subtraction.
* A `Doctor` object is identified by its index in the roster list; the
  mutable Python objects become explicit state passing on `SchedState`.
* Python floats only ever hold small dyadic rationals plus `float('inf')`
  here, so scores are modelled exactly by `SKey` (`ℚ` plus infinity).
* `random.random()` values are supplied by a stream `rs : Nat → ℚ`
  consumed left to right, one value per candidate scored (CPython's
  `sorted` computes each key once, in list order).
* Exceptions (`ValueError` from the two allocation checks and from
  `list.remove`, `ZeroDivisionError` from `len(self.doctors) == 0`)
  become the `Err` type in `Except`.
-/

set_option allowUnsafeReducibility true in
attribute [semireducible] Rat.add Rat.mul Rat.sub Rat.neg Rat.inv Rat.div

/-- A staff member: `Doctor.__init__` fields, with `shifts`/`last_shift`
the mutable assignment history. Vacation and mobile sets are modelled as
lists (only membership is ever used). -/
structure Doc where
  name : String
  team : String
  shifts : List Int
  last_shift : Option Int
  vacation_days : List Int
  mobile_team_days : List Int
deriving DecidableEq, Repr

/-- Placeholder used for out-of-range list access (never reached on the
index sets the program uses). -/
def dummyDoc : Doc := ⟨"", "", [], none, [], []⟩

/-- The engine state: the roster (Python mutates the `Doctor` objects in
place) and the `schedule` dict, in insertion order, mapping a date to the
list of assigned doctor indices. -/
structure SchedState where
  doctors : List Doc
  sched : List (Int × List Nat)
deriving DecidableEq, Repr

/-- The exceptions the engine can raise: the two allocation `ValueError`s
(each carrying the offending date), `list.remove` on a missing element,
and `ZeroDivisionError` from averaging over an empty roster. -/
inductive Err where
  | allocWeekend (d : Int)
  | allocWeekday (d : Int)
  | removeMissing
  | zeroDiv
deriving DecidableEq, Repr

/-- `date.weekday() in [4, 5]`: Friday or Saturday. -/
def isWeekendDay (d : Int) : Bool := d % 7 == 4 || d % 7 == 5

/-- `self.weekend_cooldown = 14` (fixed in `Schedule.__init__`). -/
def weekend_cooldown : Int := 14

/-- `sum(1 for shift in doctor.shifts if 0 <= (date - shift).days < 7)`. -/
def weekCount (shifts : List Int) (d : Int) : Nat :=
  (shifts.filter (fun s => decide (0 ≤ d - s) && decide (d - s < 7))).length

/-- `Schedule._is_available`. `mx` is `max_oncalls_per_week`, `mg` is
`min_days_between_oncalls`. -/
def is_available (mx mg : Int) (doc : Doc) (d : Int) : Bool :=
  if d ∈ doc.vacation_days ∨ d ∈ doc.mobile_team_days then
    false
  else
    match doc.last_shift with
    | none => true
    | some l => decide (d - l > mg) && decide ((weekCount doc.shifts d : Int) < mx)

/-- Python `max(generator, default=None)`. -/
def listMax : List Int → Option Int
  | [] => none
  | x :: xs => some (xs.foldl max x)

/-- `Schedule._is_weekend_eligible`. -/
def is_weekend_eligible (doc : Doc) (d : Int) : Bool :=
  match listMax (doc.shifts.filter (fun s => isWeekendDay s)) with
  | none => true
  | some m => decide (d - m ≥ weekend_cooldown)

/-- A Python float score: either `float('inf')` (a doctor with no
`last_shift`) or an exact rational. -/
inductive SKey where
  | inf
  | fin (q : ℚ)
deriving DecidableEq, Repr

/-- `fairness_score` from `Schedule._select_doctors`.  When
`doctor.last_shift` is falsy the `days_since_last_shift * 0.5` term is
`float('inf')`, which absorbs the finite penalties. -/
def fairness_score (d : Int) (doc : Doc) : SKey :=
  match doc.last_shift with
  | none => .inf
  | some l =>
    let total : ℚ := doc.shifts.length
    let weekend_oncalls : ℚ := (doc.shifts.filter (fun s => isWeekendDay s)).length
    let weekday_oncalls : ℚ := total - weekend_oncalls
    .fin (-(total * 10)
      - (if isWeekendDay d then weekend_oncalls * 5 else weekday_oncalls * 5)
      + (d - l) * (1 / 2))

/-- `random.random() * 0.1`: the jitter added to a fairness score. -/
def jitterOf (r : ℚ) : ℚ := r * (1 / 10)

/-- `fairness_score(d) + random.random() * 0.1` (adding a finite jitter to
`float('inf')` leaves it infinite). -/
def addJitter : SKey → ℚ → SKey
  | .inf, _ => .inf
  | .fin q, r => .fin (q + jitterOf r)

/-- Strict "greater" on sort keys (`inf` beats every finite value; two
`inf`s compare equal). -/
def keyGT : SKey → SKey → Bool
  | .inf, .inf => false
  | .inf, .fin _ => true
  | .fin _, .inf => false
  | .fin a, .fin b => decide (b < a)

/-- Insert into a descending-sorted list, after every strictly greater
key (so that, among equal keys, earlier list elements stay first: the
stability contract of CPython's `sorted`). -/
def insertDesc (x : Nat × SKey) : List (Nat × SKey) → List (Nat × SKey)
  | [] => [x]
  | y :: ys => if keyGT y.2 x.2 then y :: insertDesc x ys else x :: y :: ys

/-- Stable descending sort by key: `sorted(..., key=..., reverse=True)`. -/
def sortDesc : List (Nat × SKey) → List (Nat × SKey)
  | [] => []
  | x :: xs => insertDesc x (sortDesc xs)

/-- `Schedule._select_doctors` on a list of candidate indices.  `k` is the
number of random values consumed so far by this generation run. -/
def select_doctors (doctors : List Doc) (rs : Nat → ℚ) (k : Nat)
    (avail : List Nat) (count : Nat) (d : Int) : List Nat :=
  let decorated := avail.enum.map
    (fun p => (p.2, addJitter (fairness_score d (doctors.getD p.2 dummyDoc)) (rs (k + p.1))))
  let sorted := (sortDesc decorated).map (fun p => p.1)
  if 1 < count then
    match sorted with
    | [] => []
    | first :: rest =>
      let other_team := rest.filter
        (fun j => (doctors.getD j dummyDoc).team ≠ (doctors.getD first dummyDoc).team)
      match other_team with
      | [] => sorted.take count
      | o :: _ => [first, o]
  else
    sorted.take count

/-- `doctor.shifts.append(date); doctor.last_shift = date`. -/
def addShift (d : Int) (doc : Doc) : Doc :=
  { doc with shifts := doc.shifts ++ [d], last_shift := some d }

/-- `Schedule._get_available_doctors` (indices, in roster order). -/
def available_doctors (mx mg : Int) (st : SchedState) (d : Int) : List Nat :=
  (List.range st.doctors.length).filter
    (fun j => is_available mx mg (st.doctors.getD j dummyDoc) d)

/-- Record one day's selection: `self.schedule[date] = selected` plus the
shift append / `last_shift` update on each selected doctor. -/
def commit (st : SchedState) (d : Int) (sel : List Nat) : SchedState :=
  { doctors := sel.foldl (fun ds j => ds.set j (addShift d (ds.getD j dummyDoc))) st.doctors,
    sched := st.sched ++ [(d, sel)] }

/-- One iteration of the `generate_schedule` loop:
`_assign_weekend_oncall` / `_assign_weekday_oncall` on date `d`.  The
`Nat` component counts consumed random values. -/
def assignDay (mx mg : Int) (rs : Nat → ℚ) (x : SchedState × Nat) (d : Int) :
    Except Err (SchedState × Nat) :=
  let st := x.1
  let k := x.2
  if isWeekendDay d then
    let avail := available_doctors mx mg st d
    let elig := avail.filter (fun j => is_weekend_eligible (st.doctors.getD j dummyDoc) d)
    if elig.length < 2 then
      .error (.allocWeekend d)
    else
      .ok (commit st d (select_doctors st.doctors rs k elig 2 d), k + elig.length)
  else
    let avail := available_doctors mx mg st d
    if avail.length = 0 then
      .error (.allocWeekday d)
    else
      .ok (commit st d (select_doctors st.doctors rs k avail 1 d), k + avail.length)

/-- The closed date range `[s, e]` walked by the `while` loop. -/
def dateRange (s e : Int) : List Int :=
  (List.range (e + 1 - s).toNat).map (fun (i : Nat) => s + (i : Int))

/-- The `while current_date <= self.end_date` loop. -/
def assignAll (mx mg : Int) (rs : Nat → ℚ) :
    SchedState × Nat → List Int → Except Err (SchedState × Nat)
  | x, [] => .ok x
  | x, d :: ds =>
    match assignDay mx mg rs x d with
    | .error e => .error e
    | .ok x' => assignAll mx mg rs x' ds

/-- `doctor.shifts.remove(date)`: removes the first occurrence, raising
`ValueError` if absent. -/
def eraseShift (d : Int) (doc : Doc) : Except Err Doc :=
  if d ∈ doc.shifts then
    .ok { doc with shifts := doc.shifts.erase d }
  else
    .error .removeMissing

/-- `self.schedule[date][i] = new_doctor` for the entry at position
`pos`. -/
def setSlot (sched : List (Int × List Nat)) (pos i newJ : Nat) :
    List (Int × List Nat) :=
  sched.set pos ((sched.getD pos (0, [])).1, (sched.getD pos (0, [])).2.set i newJ)

/-- `min(underworked_doctors, key=lambda d: oncall_counts[d])`: first
element with minimal count. -/
def argminCnt (cnt : List Int) (u : Nat) : List Nat → Nat
  | [] => u
  | v :: vs => if cnt.getD v 0 < cnt.getD u 0 then argminCnt cnt v vs else argminCnt cnt u vs

/-- The body of `_balance_schedule`'s inner loop for the slot `i` of the
schedule entry at position `pos`; `cnt` is the (mutated) `oncall_counts`
dict indexed by doctor. -/
def slotStep (mx mg : Int) (avg : ℚ) (pos : Nat) (x : SchedState × List Int) (i : Nat) :
    Except Err (SchedState × List Int) :=
  let st := x.1
  let cnt := x.2
  let d := (st.sched.getD pos (0, [])).1
  let j := (st.sched.getD pos (0, [])).2.getD i 0
  if ((cnt.getD j 0 : ℚ) > avg + 1) then
    let avail := available_doctors mx mg st d
    let under := avail.filter (fun j2 => ((cnt.getD j2 0 : ℚ) < avg - 1))
    match under with
    | [] => .ok x
    | u :: us =>
      let newJ := argminCnt cnt u us
      match eraseShift d (st.doctors.getD j dummyDoc) with
      | .error e => .error e
      | .ok docJ =>
        let ds1 := st.doctors.set j docJ
        let ds2 := ds1.set newJ (addShift d (ds1.getD newJ dummyDoc))
        .ok (⟨ds2, setSlot st.sched pos i newJ⟩,
          (cnt.set j (cnt.getD j 0 - 1)).set newJ (cnt.getD newJ 0 + 1))
  else
    .ok x

/-- One pass of `_balance_schedule`: compute `oncall_counts` and the mean
(`ZeroDivisionError` on an empty roster), then walk every (date, slot)
pair in schedule order. -/
def balance_pass (mx mg : Int) (st : SchedState) : Except Err SchedState :=
  if st.doctors.length = 0 then
    .error .zeroDiv
  else
    let cnt : List Int := st.doctors.map (fun doc => (doc.shifts.length : Int))
    let avg : ℚ := ((cnt.sum : Int) : ℚ) / (st.doctors.length : ℚ)
    ((List.range st.sched.length).foldlM
        (fun x pos =>
          (List.range ((x.1.sched.getD pos (0, [])).2.length)).foldlM
            (slotStep mx mg avg pos) x)
        (st, cnt)).map (fun x => x.1)

/-- `Schedule._balance_schedule`: exactly three passes. -/
def balance_schedule (mx mg : Int) (st : SchedState) : Except Err SchedState := do
  let st1 ← balance_pass mx mg st
  let st2 ← balance_pass mx mg st1
  balance_pass mx mg st2

/-- `doctor.reset()`. -/
def resetDoc (doc : Doc) : Doc :=
  { doc with shifts := [], last_shift := none }

/-- `Schedule(...)` followed by `generate_schedule()`: reset every doctor,
assign every day of the closed range, rebalance, and return `True`
together with the final state. -/
def generate_schedule (rs : Nat → ℚ) (doctors : List Doc)
    (start_date end_date : Int) (mx mg : Int) : Except Err (Bool × SchedState) := do
  let st0 : SchedState := ⟨doctors.map resetDoc, []⟩
  let x1 ← assignAll mx mg rs (st0, 0) (dateRange start_date end_date)
  let st2 ← balance_schedule mx mg x1.1
  return (true, st2)

/-! ### Concrete inputs for witnesses and counterexamples -/

/-- The all-zero random stream used by the concrete runs (every jitter is
0, so ties fall back to roster order, as with any fixed draw). -/
def rng0 : Nat → ℚ := fun _ => 0

def soloDoc : Doc := ⟨"Solo", "Team A", [], none, [], []⟩

def twoDocs : List Doc :=
  [⟨"W1", "Team A", [], none, [], []⟩, ⟨"W2", "Team B", [], none, [], []⟩]

/-- Final state of the two-doctor run over the two weekdays 0 and 1. -/
def witState : SchedState :=
  ⟨[⟨"W1", "Team A", [0], some 0, [], []⟩, ⟨"W2", "Team B", [1], some 1, [], []⟩],
    [(0, [0]), (1, [1])]⟩

/-- Vacation on every day of `[0, 17]` except the listed ones. -/
def vacExcept (allowed : List Int) : List Int :=
  (dateRange 0 17).filter (fun d2 => !(allowed.contains d2))

def mkCexDoc (nm : String) (allowed : List Int) : Doc :=
  ⟨nm, "T", [], none, vacExcept allowed, []⟩

/-- A nine-doctor roster over days 0..17 (weekend days 4, 5, 11, 12).
Vacations force every greedy choice; doctor "O" ends up overloaded and
doctor "A" underworked with a weekend shift on day 4, so pass 1 of the
rebalancer swaps "A" into the weekend slot of day 11. -/
def cexDoctors : List Doc :=
  [ mkCexDoc "A" [4, 11],
    mkCexDoc "B" [4, 14, 16],
    mkCexDoc "C" [5, 10],
    mkCexDoc "D" [5],
    mkCexDoc "E" [11],
    mkCexDoc "F" [12],
    mkCexDoc "G" [12],
    mkCexDoc "O" [0, 2, 6, 8, 11],
    mkCexDoc "P" [1, 3, 7, 9, 13, 15, 17] ]

/-- A doctor last assigned on day 1 (for the minimum-gap boundary). -/
def gapDoc : Doc := ⟨"G", "Team A", [1], some 1, [], []⟩

/-- A doctor whose deterministic fairness score on day 30 is exactly 0. -/
def jitterDoc : Doc := ⟨"J", "Team A", [0], some 0, [], []⟩

/-- A busier doctor whose deterministic fairness score on day 30 is -16. -/
def jitterDoc2 : Doc := ⟨"K", "Team A", [0, 2], some 2, [], []⟩

/-- The sorted candidate list built inside `_select_doctors`. -/
def sortedCandidates (doctors : List Doc) (rs : Nat → ℚ) (k : Nat)
    (avail : List Nat) (d : Int) : List Nat :=
  (sortDesc (avail.enum.map (fun p =>
    (p.2, addJitter (fairness_score d (doctors.getD p.2 dummyDoc)) (rs (k + p.1)))))).map
    (fun p => p.1)

/-- Structural invariant on one doctor's history: `last_shift` is set
exactly when the history is nonempty and bounds it from above, the
history is strictly increasing, and every 7-day window holds at most
`mx` shifts. -/
structure DocInv (mx : Int) (doc : Doc) : Prop where
  last_none_iff : doc.last_shift = none ↔ doc.shifts = []
  le_last : ∀ l, doc.last_shift = some l → ∀ s ∈ doc.shifts, s ≤ l
  sorted : List.Pairwise (· < ·) doc.shifts
  weekly : ∀ t : Int, (weekCount doc.shifts t : Int) ≤ mx

/-- The weekend-cooldown chain on a doctor's weekend assignments. -/
def WkndChain (doc : Doc) : Prop :=
  List.Chain' (fun a b => a + weekend_cooldown ≤ b)
    (doc.shifts.filter (fun s => isWeekendDay s))

/-- Doctor access by index (out-of-range indices never occur on the
reachable states). -/
def dAt (st : SchedState) (j : Nat) : Doc := st.doctors.getD j dummyDoc

/-- One doctor's `last_shift` actually occurs in the history (together
with `DocInv.le_last` this says it is the maximum). -/
def ExactLast (doc : Doc) : Prop := ∀ l, doc.last_shift = some l → l ∈ doc.shifts

/-- Global state invariant maintained by the whole generation run. -/
structure SInv (mx : Int) (st : SchedState) : Prop where
  docs : ∀ j, j < st.doctors.length → DocInv mx (dAt st j)
  mem_shifts : ∀ p ∈ st.sched, ∀ j ∈ p.2,
    j < st.doctors.length ∧ p.1 ∈ (dAt st j).shifts
  slots_nodup : ∀ p ∈ st.sched, p.2.Nodup
  slots_len : ∀ p ∈ st.sched, p.2.length = if isWeekendDay p.1 then 2 else 1
  keys_nodup : (st.sched.map Prod.fst).Nodup

/-- All doctors satisfy `ExactLast` (holds throughout the assignment
loop, but not through rebalancing swaps). -/
def DocsExact (st : SchedState) : Prop :=
  ∀ j, j < st.doctors.length → ExactLast (dAt st j)

/-- All doctors satisfy the weekend-cooldown chain. -/
def DocsWknd (st : SchedState) : Prop :=
  ∀ j, j < st.doctors.length → WkndChain (dAt st j)

/-- Count bookkeeping: `oncall_counts` agrees with the doctors' actual
history lengths. -/
def CntSync (st : SchedState) (cnt : List Int) : Prop :=
  cnt = st.doctors.map (fun doc => (doc.shifts.length : Int))

deriving instance DecidableEq for Except

/-! ### Generic list lemmas -/

/-- Filtering with a weaker predicate keeps at least as many elements. -/
theorem length_filter_le_of_imp {α : Type} (l : List α) (p q : α → Bool)
    (h : ∀ x ∈ l, p x = true → q x = true) :
    (l.filter p).length ≤ (l.filter q).length := by
  induction l with
  | nil => simp
  | cons a l ih =>
    have ih' := ih (fun x hx => h x (List.mem_cons_of_mem _ hx))
    by_cases hp : p a = true
    · simp only [List.filter_cons, hp, h a (List.mem_cons_self _ _) hp, if_pos]
      simpa using ih'
    · simp only [List.filter_cons, Bool.not_eq_true] at hp ⊢
      rw [hp]
      simp only [Bool.false_eq_true, if_false]
      rcases hq : q a with _ | _
      · simpa [hq] using ih'
      · simp only [hq, if_pos]
        exact Nat.le_succ_of_le ih'

theorem foldl_max_le_init (xs : List Int) (a : Int) : a ≤ xs.foldl max a := by
  induction xs generalizing a with
  | nil => simp
  | cons x xs ih => exact le_trans (le_max_left a x) (ih (max a x))

theorem le_foldl_max_of_mem (xs : List Int) (a x : Int) (hx : x ∈ xs) :
    x ≤ xs.foldl max a := by
  induction xs generalizing a with
  | nil => cases hx
  | cons y ys ih =>
    rcases List.mem_cons.mp hx with rfl | h
    · exact le_trans (le_max_right a x) (foldl_max_le_init ys (max a x))
    · exact ih (max a y) h

/-- Every element of a list is bounded by its Python-style maximum. -/
theorem listMax_le {l : List Int} {m : Int} (h : listMax l = some m) :
    ∀ x ∈ l, x ≤ m := by
  cases l with
  | nil => cases h
  | cons a xs =>
    intro x hx
    have hm : xs.foldl max a = m := by simpa [listMax] using h
    rcases List.mem_cons.mp hx with rfl | h'
    · exact hm ▸ foldl_max_le_init xs x
    · exact hm ▸ le_foldl_max_of_mem xs a x h'

theorem insertDesc_perm (x : Nat × SKey) (l : List (Nat × SKey)) :
    List.Perm (insertDesc x l) (x :: l) := by
  induction l with
  | nil => exact List.Perm.refl _
  | cons y ys ih =>
    simp only [insertDesc]
    by_cases h : keyGT y.2 x.2 = true
    · rw [if_pos h]
      exact (ih.cons y).trans (List.Perm.swap x y ys)
    · rw [if_neg h]

/-- The stable descending sort is a permutation of its input. -/
theorem sortDesc_perm (l : List (Nat × SKey)) : List.Perm (sortDesc l) l := by
  induction l with
  | nil => exact List.Perm.refl _
  | cons x xs ih => exact (insertDesc_perm x (sortDesc xs)).trans (ih.cons x)

/-- Membership in the walked date range is exactly the closed interval. -/
theorem mem_dateRange {s e d : Int} : d ∈ dateRange s e ↔ s ≤ d ∧ d ≤ e := by
  constructor
  · intro h
    obtain ⟨i, hi, heq⟩ := List.mem_map.mp h
    rw [List.mem_range] at hi
    omega
  · rintro ⟨h1, h2⟩
    refine List.mem_map.mpr ⟨(d - s).toNat, ?_, ?_⟩
    · rw [List.mem_range]; omega
    · omega

theorem dateRange_pairwise (s e : Int) : List.Pairwise (· < ·) (dateRange s e) := by
  unfold dateRange
  rw [List.pairwise_map]
  refine (List.pairwise_lt_range _).imp (fun {a b} h => ?_)
  have h2 : a < b := h
  omega

theorem dateRange_nodup (s e : Int) : (dateRange s e).Nodup :=
  (dateRange_pairwise s e).imp (fun h => ne_of_lt h)

/-- Two entries of a schedule with no duplicate keys and equal keys are
the same entry. -/
theorem eq_of_mem_keys_nodup {sched : List (Int × List Nat)}
    (h : (sched.map Prod.fst).Nodup) {p q : Int × List Nat}
    (hp : p ∈ sched) (hq : q ∈ sched) (he : p.1 = q.1) : p = q := by
  induction sched with
  | nil => cases hp
  | cons a rest ih =>
    have h1 : a.1 ∉ rest.map Prod.fst := (List.nodup_cons.mp (by simpa using h)).1
    have h2 : (rest.map Prod.fst).Nodup := (List.nodup_cons.mp (by simpa using h)).2
    rcases List.mem_cons.mp hp with rfl | hp' <;> rcases List.mem_cons.mp hq with rfl | hq'
    · rfl
    · exact absurd (he ▸ List.mem_map_of_mem Prod.fst hq') h1
    · exact absurd (he ▸ List.mem_map_of_mem Prod.fst hp') h1
    · exact ih h2 hp' hq'

/-- Elements of `l.set pos v` are `v` or sit at a position other than
`pos` in `l`. -/
theorem mem_set_elim {α : Type} [DecidableEq α] {l : List α} {pos : Nat} {v p : α}
    (h : p ∈ l.set pos v) :
    p = v ∨ ∃ q, ∃ hq : q < l.length, q ≠ pos ∧ l[q] = p := by
  rw [List.mem_iff_getElem] at h
  obtain ⟨q, hq, hqe⟩ := h
  rw [List.length_set] at hq
  by_cases hqp : pos = q
  · subst hqp
    rw [List.getElem_set] at hqe
    simp only [if_pos rfl] at hqe
    exact Or.inl hqe.symm
  · refine Or.inr ⟨q, hq, fun hc => hqp hc.symm, ?_⟩
    rw [List.getElem_set, if_neg hqp] at hqe
    exact hqe

/-! ### Selection lemmas -/

theorem sortedCandidates_perm (doctors : List Doc) (rs : Nat → ℚ) (k : Nat)
    (avail : List Nat) (d : Int) :
    List.Perm (sortedCandidates doctors rs k avail d) avail := by
  have hds : ((avail.enum.map (fun p =>
      (p.2, addJitter (fairness_score d (doctors.getD p.2 dummyDoc)) (rs (k + p.1))))).map
      (fun p => p.1)) = avail := by
    rw [List.map_map]
    exact List.enum_map_snd avail
  have h1 := (sortDesc_perm (avail.enum.map (fun p =>
    (p.2, addJitter (fairness_score d (doctors.getD p.2 dummyDoc)) (rs (k + p.1)))))).map
    (fun p : Nat × SKey => p.1)
  rw [hds] at h1
  exact h1

theorem select_doctors_eq_take (doctors : List Doc) (rs : Nat → ℚ) (k : Nat)
    (avail : List Nat) (count : Nat) (d : Int) (hc : ¬ 1 < count) :
    select_doctors doctors rs k avail count d =
      (sortedCandidates doctors rs k avail d).take count := by
  unfold select_doctors
  simp only
  rw [if_neg hc]
  rfl

theorem select_doctors_eq_two (doctors : List Doc) (rs : Nat → ℚ) (k : Nat)
    (avail : List Nat) (d : Int) (first : Nat) (rest : List Nat)
    (hL : sortedCandidates doctors rs k avail d = first :: rest) :
    select_doctors doctors rs k avail 2 d =
      (match rest.filter (fun j2 =>
          decide ((doctors.getD j2 dummyDoc).team ≠ (doctors.getD first dummyDoc).team)) with
        | [] => (first :: rest).take 2
        | o :: _ => [first, o]) := by
  unfold select_doctors
  simp only
  rw [if_pos (by norm_num)]
  unfold sortedCandidates at hL
  rw [hL]

theorem select_doctors_eq_two_nil (doctors : List Doc) (rs : Nat → ℚ) (k : Nat)
    (avail : List Nat) (d : Int)
    (hL : sortedCandidates doctors rs k avail d = []) :
    select_doctors doctors rs k avail 2 d = [] := by
  unfold select_doctors
  simp only
  rw [if_pos (by norm_num)]
  unfold sortedCandidates at hL
  rw [hL]

/-- Whatever `_select_doctors` returns on a weekend call comes from the
candidate list. -/
theorem select_doctors_mem_two (doctors : List Doc) (rs : Nat → ℚ) (k : Nat)
    (avail : List Nat) (d : Int) :
    ∀ j ∈ select_doctors doctors rs k avail 2 d, j ∈ avail := by
  intro j hj
  have hperm := sortedCandidates_perm doctors rs k avail d
  cases hL : sortedCandidates doctors rs k avail d with
  | nil =>
    rw [select_doctors_eq_two_nil doctors rs k avail d hL] at hj
    cases hj
  | cons first rest =>
    rw [select_doctors_eq_two doctors rs k avail d first rest hL] at hj
    rw [hL] at hperm
    cases hf : rest.filter (fun j2 =>
        decide ((doctors.getD j2 dummyDoc).team ≠ (doctors.getD first dummyDoc).team)) with
    | nil =>
      rw [hf] at hj
      simp only at hj
      exact hperm.mem_iff.mp (List.mem_of_mem_take hj)
    | cons o os =>
      rw [hf] at hj
      simp only at hj
      rcases List.mem_cons.mp hj with rfl | hj2
      · exact hperm.mem_iff.mp (List.mem_cons_self _ _)
      · rcases List.mem_cons.mp hj2 with rfl | hj3
        · have hmem2 : j ∈ rest.filter (fun j2 =>
              decide ((doctors.getD j2 dummyDoc).team ≠ (doctors.getD first dummyDoc).team)) := by
            rw [hf]
            exact List.mem_cons_self _ _
          exact hperm.mem_iff.mp (List.mem_cons_of_mem _ (List.mem_of_mem_filter hmem2))
        · cases hj3

/-- Whatever `_select_doctors` returns on a weekday call comes from the
candidate list. -/
theorem select_doctors_mem_one (doctors : List Doc) (rs : Nat → ℚ) (k : Nat)
    (avail : List Nat) (d : Int) :
    ∀ j ∈ select_doctors doctors rs k avail 1 d, j ∈ avail := by
  intro j hj
  have hperm := sortedCandidates_perm doctors rs k avail d
  rw [select_doctors_eq_take doctors rs k avail 1 d (by norm_num)] at hj
  exact hperm.mem_iff.mp (List.mem_of_mem_take hj)

/-- On a weekend call with at least two distinct candidates,
`_select_doctors` returns two distinct candidates. -/
theorem select_doctors_two (doctors : List Doc) (rs : Nat → ℚ) (k : Nat)
    (avail : List Nat) (d : Int) (hnd : avail.Nodup) (hlen : 2 ≤ avail.length) :
    (select_doctors doctors rs k avail 2 d).length = 2 ∧
    (select_doctors doctors rs k avail 2 d).Nodup := by
  have hperm := sortedCandidates_perm doctors rs k avail d
  cases hL : sortedCandidates doctors rs k avail d with
  | nil =>
    rw [hL] at hperm
    rw [hperm.length_eq.symm] at hlen
    simp at hlen
  | cons first rest =>
    rw [select_doctors_eq_two doctors rs k avail d first rest hL]
    rw [hL] at hperm
    have hLnd : (first :: rest).Nodup := hperm.nodup_iff.mpr hnd
    have hLlen : (first :: rest).length = avail.length := hperm.length_eq
    cases hf : rest.filter (fun j2 =>
        decide ((doctors.getD j2 dummyDoc).team ≠ (doctors.getD first dummyDoc).team)) with
    | nil =>
      simp only
      constructor
      · rw [List.length_take, hLlen]
        omega
      · exact (List.take_sublist _ _).nodup hLnd
    | cons o os =>
      have ho : o ∈ rest := List.mem_of_mem_filter (hf ▸ List.mem_cons_self o os)
      have hfo : first ≠ o := by
        intro h
        exact (List.nodup_cons.mp hLnd).1 (h ▸ ho)
      simp only
      constructor
      · rfl
      · simp [List.nodup_cons, hfo]

/-- On a weekday call with a nonempty candidate list, `_select_doctors`
returns exactly one candidate. -/
theorem select_doctors_one (doctors : List Doc) (rs : Nat → ℚ) (k : Nat)
    (avail : List Nat) (d : Int) (hlen : 1 ≤ avail.length) :
    (select_doctors doctors rs k avail 1 d).length = 1 := by
  have hperm := sortedCandidates_perm doctors rs k avail d
  rw [select_doctors_eq_take doctors rs k avail 1 d (by norm_num), List.length_take,
    hperm.length_eq]
  omega

/-! ### Commit lemmas -/

theorem foldl_set_length (d : Int) (sel : List Nat) (ds : List Doc) :
    (sel.foldl (fun ds2 j => ds2.set j (addShift d (ds2.getD j dummyDoc))) ds).length =
      ds.length := by
  induction sel generalizing ds with
  | nil => rfl
  | cons a rest ih => rw [List.foldl_cons, ih, List.length_set]

/-- Pointwise description of the history update performed by a day's
commit: selected doctors get the shift appended, others are untouched. -/
theorem foldl_set_getD (d : Int) (sel : List Nat) (ds : List Doc) (hnd : sel.Nodup)
    (hlt : ∀ i ∈ sel, i < ds.length) (j : Nat) :
    (sel.foldl (fun ds2 j2 => ds2.set j2 (addShift d (ds2.getD j2 dummyDoc))) ds).getD j dummyDoc =
      if j ∈ sel then addShift d (ds.getD j dummyDoc) else ds.getD j dummyDoc := by
  induction sel generalizing ds with
  | nil => simp
  | cons a rest ih =>
    obtain ⟨ha, hrest⟩ := List.nodup_cons.mp hnd
    rw [List.foldl_cons, ih _ hrest
      (fun i hi => by rw [List.length_set]; exact hlt i (List.mem_cons_of_mem _ hi))]
    by_cases hj : j ∈ rest
    · have hne : a ≠ j := fun h => ha (h ▸ hj)
      rw [if_pos hj, if_pos (List.mem_cons_of_mem _ hj)]
      simp only [List.getD_eq_getElem?_getD, List.getElem?_set_ne hne]
    · by_cases hja : j = a
      · subst hja
        rw [if_neg hj, if_pos (List.mem_cons_self _ _)]
        simp only [List.getD_eq_getElem?_getD,
          List.getElem?_set_self (hlt j (List.mem_cons_self _ _))]
        rfl
      · have hnotin : j ∉ (a :: rest) := by
          intro h
          rcases List.mem_cons.mp h with h' | h'
          · exact hja h'
          · exact hj h'
        rw [if_neg hj, if_neg hnotin]
        simp only [List.getD_eq_getElem?_getD, List.getElem?_set_ne (fun h => hja h.symm)]

theorem commit_doctors_length (st : SchedState) (d : Int) (sel : List Nat) :
    (commit st d sel).doctors.length = st.doctors.length :=
  foldl_set_length d sel st.doctors

theorem commit_doctors_getD (st : SchedState) (d : Int) (sel : List Nat) (hnd : sel.Nodup)
    (hlt : ∀ i ∈ sel, i < st.doctors.length) (j : Nat) :
    (commit st d sel).doctors.getD j dummyDoc =
      if j ∈ sel then addShift d (st.doctors.getD j dummyDoc)
      else st.doctors.getD j dummyDoc :=
  foldl_set_getD d sel st.doctors hnd hlt j

theorem commit_sched (st : SchedState) (d : Int) (sel : List Nat) :
    (commit st d sel).sched = st.sched ++ [(d, sel)] := rfl

/-- Membership in the filtered availability list. -/
theorem mem_available_doctors {mx mg : Int} {st : SchedState} {d : Int} {j : Nat} :
    j ∈ available_doctors mx mg st d ↔
      j < st.doctors.length ∧ is_available mx mg (st.doctors.getD j dummyDoc) d = true := by
  unfold available_doctors
  rw [List.mem_filter, List.mem_range]

theorem available_doctors_nodup (mx mg : Int) (st : SchedState) (d : Int) :
    (available_doctors mx mg st d).Nodup :=
  (List.nodup_range _).filter _

/-! ### Per-doctor invariants -/

theorem weekCount_sublist {l1 l2 : List Int} (h : l1.Sublist l2) (d : Int) :
    weekCount l1 d ≤ weekCount l2 d :=
  List.Sublist.length_le (h.filter _)

theorem weekCount_nil (d : Int) : weekCount [] d = 0 := rfl

theorem weekCount_append_singleton (l : List Int) (d' d : Int) :
    weekCount (l ++ [d']) d =
      weekCount l d + (if 0 ≤ d - d' ∧ d - d' < 7 then 1 else 0) := by
  unfold weekCount
  rw [List.filter_append, List.length_append]
  congr 1
  rw [List.filter_cons, List.filter_nil]
  by_cases h : 0 ≤ d - d' ∧ d - d' < 7
  · have hb : (decide (0 ≤ d - d') && decide (d - d' < 7)) = true := by
      simp only [Bool.and_eq_true, decide_eq_true_eq]
      exact h
    rw [if_pos hb, if_pos h]
    rfl
  · have hb : ¬ ((decide (0 ≤ d - d') && decide (d - d' < 7)) = true) := by
      simp only [Bool.and_eq_true, decide_eq_true_eq]
      exact h
    rw [if_neg hb, if_neg h]
    rfl

/-- If every element of `l` precedes `d` and `d` lies in the 7-day window
ending at `t`, the window at `t` holds no more of `l` than the one
ending at `d`. -/
theorem weekCount_le_of_window {l : List Int} {d t : Int}
    (hx : ∀ x ∈ l, x < d) (h1 : 0 ≤ t - d) (h2 : t - d < 7) :
    weekCount l t ≤ weekCount l d := by
  apply length_filter_le_of_imp
  intro x hxl hpx
  have hxd := hx x hxl
  simp only [Bool.and_eq_true, decide_eq_true_eq] at hpx ⊢
  omega

/-- Committing a shift on an available doctor with sane parameters
preserves the doctor invariant, and the new date is strictly beyond the
whole history. -/
theorem addShift_docInv {mx mg : Int} {doc : Doc} {d : Int}
    (hmg : 0 ≤ mg) (hmx : 1 ≤ mx) (hdoc : DocInv mx doc)
    (hav : is_available mx mg doc d = true) :
    DocInv mx (addShift d doc) ∧ (∀ s ∈ doc.shifts, s < d) := by
  unfold is_available at hav
  by_cases hvac : d ∈ doc.vacation_days ∨ d ∈ doc.mobile_team_days
  · rw [if_pos hvac] at hav
    cases hav
  · rw [if_neg hvac] at hav
    cases hls : doc.last_shift with
    | none =>
      have hempty : doc.shifts = [] := hdoc.last_none_iff.mp hls
      have hlt : ∀ s ∈ doc.shifts, s < d := by
        rw [hempty]
        intro s hs
        cases hs
      refine ⟨⟨?_, ?_, ?_, ?_⟩, hlt⟩
      · simp [addShift]
      · intro l hl s hs
        simp only [addShift] at hl hs
        rw [hempty] at hs
        simp only [List.nil_append, List.mem_singleton] at hs
        cases hl
        omega
      · simp only [addShift]
        rw [hempty]
        simp
      · intro t
        simp only [addShift]
        rw [hempty, List.nil_append]
        have : weekCount [d] t ≤ 1 := by
          unfold weekCount
          rcases List.length_filter_le _ [d] with h
          simpa using h
        omega
    | some l =>
      rw [hls] at hav
      simp only [Bool.and_eq_true, decide_eq_true_eq] at hav
      obtain ⟨hgap, hcnt⟩ := hav
      have hlt : ∀ s ∈ doc.shifts, s < d := by
        intro s hs
        have := hdoc.le_last l hls s hs
        omega
      refine ⟨⟨?_, ?_, ?_, ?_⟩, hlt⟩
      · simp [addShift]
      · intro l2 hl2 s hs
        simp only [addShift] at hl2 hs
        cases hl2
        rcases List.mem_append.mp hs with hs' | hs'
        · exact le_of_lt (hlt s hs')
        · simp only [List.mem_singleton] at hs'
          omega
      · simp only [addShift]
        rw [List.pairwise_append]
        refine ⟨hdoc.sorted, List.pairwise_singleton _ _, ?_⟩
        intro x hxl y hy
        simp only [List.mem_singleton] at hy
        subst hy
        exact hlt x hxl
      · intro t
        simp only [addShift]
        rw [weekCount_append_singleton]
        by_cases hw : 0 ≤ t - d ∧ t - d < 7
        · rw [if_pos hw]
          have hle := weekCount_le_of_window hlt hw.1 hw.2
          omega
        · rw [if_neg hw]
          have := hdoc.weekly t
          omega

theorem addShift_wkndChain {doc : Doc} {d : Int} (hch : WkndChain doc)
    (helig : isWeekendDay d = false ∨ is_weekend_eligible doc d = true) :
    WkndChain (addShift d doc) := by
  unfold WkndChain at hch ⊢
  simp only [addShift, List.filter_append]
  by_cases hwd : isWeekendDay d = true
  · have hfd : [d].filter (fun s => isWeekendDay s) = [d] := by simp [hwd]
    rw [hfd, List.chain'_append]
    refine ⟨hch, List.chain'_singleton d, ?_⟩
    intro x hx y hy
    simp only [List.head?_cons, Option.mem_def, Option.some.injEq] at hy
    subst hy
    rcases helig with h | h
    · rw [hwd] at h
      cases h
    · unfold is_weekend_eligible at h
      have hxmem : x ∈ doc.shifts.filter (fun s => isWeekendDay s) :=
        List.mem_of_mem_getLast? hx
      cases hl : doc.shifts.filter (fun s => isWeekendDay s) with
      | nil =>
        rw [hl] at hxmem
        cases hxmem
      | cons a as =>
        rw [hl] at h hxmem
        have hmax : listMax (a :: as) = some (as.foldl max a) := rfl
        rw [hmax] at h
        simp only [decide_eq_true_eq] at h
        have hxm : x ≤ as.foldl max a := listMax_le hmax x hxmem
        unfold weekend_cooldown at h ⊢
        omega
  · have hfd : [d].filter (fun s => isWeekendDay s) = [] := by
      simp only [Bool.not_eq_true] at hwd
      simp [hwd]
    rw [hfd, List.append_nil]
    exact hch

theorem erase_docInv {mx : Int} {doc : Doc} {d : Int} (hdoc : DocInv mx doc)
    (hlen : 2 ≤ doc.shifts.length) :
    DocInv mx { doc with shifts := doc.shifts.erase d } := by
  have hsub : (doc.shifts.erase d).Sublist doc.shifts := List.erase_sublist d doc.shifts
  have hlen1 : 1 ≤ (doc.shifts.erase d).length := by
    by_cases hmem : d ∈ doc.shifts
    · rw [List.length_erase_of_mem hmem]
      omega
    · rw [List.erase_of_not_mem hmem]
      omega
  refine ⟨?_, ?_, ?_, ?_⟩
  · constructor
    · intro hnone
      exfalso
      have h0 := hdoc.last_none_iff.mp hnone
      rw [h0] at hlen
      simp at hlen
    · intro herase
      exfalso
      have herase2 : doc.shifts.erase d = [] := herase
      rw [herase2] at hlen1
      simp at hlen1
  · intro l hl s hs
    exact hdoc.le_last l hl s (List.mem_of_mem_erase hs)
  · exact List.Pairwise.sublist hsub hdoc.sorted
  · intro t
    have h1 := weekCount_sublist hsub t
    have h2 := hdoc.weekly t
    show ((weekCount (doc.shifts.erase d) t : Int)) ≤ mx
    omega

/-! ### State invariants -/

/-- Committing one day's selection, drawn from the availability filter,
preserves the global invariant, `ExactLast` and the weekend chains. -/
theorem commit_inv {mx mg : Int} {st : SchedState} {d : Int}
    (hmg : 0 ≤ mg) (hmx : 1 ≤ mx)
    (hinv : SInv mx st) (hex : DocsExact st) (hwk : DocsWknd st)
    (hfresh : ∀ p ∈ st.sched, p.1 < d) (sel : List Nat)
    (hsel_mem : ∀ j ∈ sel, j ∈ available_doctors mx mg st d)
    (hsel_nd : sel.Nodup)
    (hsel_len : sel.length = if isWeekendDay d then 2 else 1)
    (hsel_elig : ∀ j ∈ sel,
      isWeekendDay d = false ∨ is_weekend_eligible (dAt st j) d = true) :
    SInv mx (commit st d sel) ∧ DocsExact (commit st d sel) ∧
      DocsWknd (commit st d sel) := by
  have hlt : ∀ j ∈ sel, j < st.doctors.length := fun j hj =>
    (mem_available_doctors.mp (hsel_mem j hj)).1
  have hav : ∀ j ∈ sel, is_available mx mg (dAt st j) d = true := fun j hj =>
    (mem_available_doctors.mp (hsel_mem j hj)).2
  have hgetD : ∀ j : Nat, dAt (commit st d sel) j =
      if j ∈ sel then addShift d (dAt st j) else dAt st j := fun j =>
    commit_doctors_getD st d sel hsel_nd hlt j
  have hdlen : (commit st d sel).doctors.length = st.doctors.length :=
    commit_doctors_length st d sel
  refine ⟨⟨?_, ?_, ?_, ?_, ?_⟩, ?_, ?_⟩
  · intro j hj
    rw [hdlen] at hj
    rw [hgetD j]
    by_cases hjs : j ∈ sel
    · rw [if_pos hjs]
      exact (addShift_docInv hmg hmx (hinv.docs j hj) (hav j hjs)).1
    · rw [if_neg hjs]
      exact hinv.docs j hj
  · intro p hp j hj
    rw [commit_sched] at hp
    rcases List.mem_append.mp hp with hp' | hp'
    · obtain ⟨hjlen, hjmem⟩ := hinv.mem_shifts p hp' j hj
      refine ⟨by rw [hdlen]; exact hjlen, ?_⟩
      rw [hgetD j]
      by_cases hjs : j ∈ sel
      · rw [if_pos hjs]
        simp only [addShift]
        exact List.mem_append.mpr (Or.inl hjmem)
      · rw [if_neg hjs]
        exact hjmem
    · simp only [List.mem_singleton] at hp'
      subst hp'
      refine ⟨by rw [hdlen]; exact hlt j hj, ?_⟩
      rw [hgetD j, if_pos hj]
      simp [addShift]
  · intro p hp
    rw [commit_sched] at hp
    rcases List.mem_append.mp hp with hp' | hp'
    · exact hinv.slots_nodup p hp'
    · simp only [List.mem_singleton] at hp'
      subst hp'
      exact hsel_nd
  · intro p hp
    rw [commit_sched] at hp
    rcases List.mem_append.mp hp with hp' | hp'
    · exact hinv.slots_len p hp'
    · simp only [List.mem_singleton] at hp'
      subst hp'
      exact hsel_len
  · rw [commit_sched, List.map_append]
    rw [List.nodup_append]
    refine ⟨hinv.keys_nodup, by simp, ?_⟩
    intro a ha hb
    simp only [List.map_cons, List.map_nil, List.mem_singleton] at hb
    subst hb
    obtain ⟨p, hp, hpa⟩ := List.mem_map.mp ha
    exact absurd (hpa ▸ hfresh p hp) (lt_irrefl _)
  · intro j hj
    rw [hdlen] at hj
    rw [hgetD j]
    by_cases hjs : j ∈ sel
    · rw [if_pos hjs]
      intro l hl
      simp only [addShift, Option.some.injEq] at hl
      subst hl
      simp [addShift]
    · rw [if_neg hjs]
      exact hex j hj
  · intro j hj
    rw [hdlen] at hj
    rw [hgetD j]
    by_cases hjs : j ∈ sel
    · rw [if_pos hjs]
      exact addShift_wkndChain (hwk j hj) (hsel_elig j hjs)
    · rw [if_neg hjs]
      exact hwk j hj

/-- One loop iteration preserves the invariants and appends exactly the
processed date to the schedule keys. -/
theorem assignDay_inv {mx mg : Int} {rs : Nat → ℚ} {st : SchedState} {k : Nat} {d : Int}
    {st' : SchedState} {k' : Nat} (hmg : 0 ≤ mg) (hmx : 1 ≤ mx)
    (hinv : SInv mx st) (hex : DocsExact st) (hwk : DocsWknd st)
    (hfresh : ∀ p ∈ st.sched, p.1 < d)
    (hok : assignDay mx mg rs (st, k) d = .ok (st', k')) :
    SInv mx st' ∧ DocsExact st' ∧ DocsWknd st' ∧
      st'.doctors.length = st.doctors.length ∧
      st'.sched.map Prod.fst = st.sched.map Prod.fst ++ [d] := by
  unfold assignDay at hok
  simp only at hok
  by_cases hwd : isWeekendDay d = true
  · rw [if_pos hwd] at hok
    by_cases hlt2 : ((available_doctors mx mg st d).filter
        (fun j => is_weekend_eligible (st.doctors.getD j dummyDoc) d)).length < 2
    · rw [if_pos hlt2] at hok
      cases hok
    · rw [if_neg hlt2] at hok
      injection hok with h
      rw [Prod.mk.injEq] at h
      obtain ⟨hst, hk⟩ := h
      subst hst
      have hend : 2 ≤ ((available_doctors mx mg st d).filter
          (fun j => is_weekend_eligible (st.doctors.getD j dummyDoc) d)).length := by
        omega
      have hendnd : ((available_doctors mx mg st d).filter
          (fun j => is_weekend_eligible (st.doctors.getD j dummyDoc) d)).Nodup :=
        (available_doctors_nodup mx mg st d).filter _
      obtain ⟨hsl, hsn⟩ := select_doctors_two st.doctors rs k _ d hendnd hend
      have hmem2 := select_doctors_mem_two st.doctors rs k
        ((available_doctors mx mg st d).filter
          (fun j => is_weekend_eligible (st.doctors.getD j dummyDoc) d)) d
      have hcommit := commit_inv hmg hmx hinv hex hwk hfresh
        (select_doctors st.doctors rs k
          ((available_doctors mx mg st d).filter
            (fun j => is_weekend_eligible (st.doctors.getD j dummyDoc) d)) 2 d)
        (fun j hj => List.mem_of_mem_filter (hmem2 j hj))
        hsn
        (by rw [if_pos hwd]; exact hsl)
        (fun j hj => Or.inr (by exact (List.mem_filter.mp (hmem2 j hj)).2))
      refine ⟨hcommit.1, hcommit.2.1, hcommit.2.2, commit_doctors_length st d _, ?_⟩
      rw [commit_sched, List.map_append]
      rfl
  · rw [if_neg hwd] at hok
    by_cases h0 : (available_doctors mx mg st d).length = 0
    · rw [if_pos h0] at hok
      cases hok
    · rw [if_neg h0] at hok
      injection hok with h
      rw [Prod.mk.injEq] at h
      obtain ⟨hst, hk⟩ := h
      subst hst
      have h1 : 1 ≤ (available_doctors mx mg st d).length := by omega
      have hsl := select_doctors_one st.doctors rs k (available_doctors mx mg st d) d h1
      obtain ⟨a, ha⟩ := List.length_eq_one.mp hsl
      have hmem1 := select_doctors_mem_one st.doctors rs k (available_doctors mx mg st d) d
      have hcommit := commit_inv hmg hmx hinv hex hwk hfresh
        (select_doctors st.doctors rs k (available_doctors mx mg st d) 1 d)
        hmem1
        (by rw [ha]; exact List.nodup_singleton a)
        (by rw [if_neg hwd]; exact hsl)
        (fun j hj => Or.inl (by simpa using hwd))
      refine ⟨hcommit.1, hcommit.2.1, hcommit.2.2, commit_doctors_length st d _, ?_⟩
      rw [commit_sched, List.map_append]
      rfl

/-- The whole assignment loop preserves the invariants; on success the
schedule keys are exactly the processed dates, in order. -/
theorem assignAll_inv {mx mg : Int} {rs : Nat → ℚ} (hmg : 0 ≤ mg) (hmx : 1 ≤ mx) :
    ∀ (dates : List Int) (st : SchedState) (k : Nat) (st' : SchedState) (k' : Nat),
    List.Pairwise (· < ·) dates →
    (∀ p ∈ st.sched, ∀ d2 ∈ dates, p.1 < d2) →
    SInv mx st → DocsExact st → DocsWknd st →
    assignAll mx mg rs (st, k) dates = .ok (st', k') →
    SInv mx st' ∧ DocsExact st' ∧ DocsWknd st' ∧
      st'.doctors.length = st.doctors.length ∧
      st'.sched.map Prod.fst = st.sched.map Prod.fst ++ dates := by
  intro dates
  induction dates with
  | nil =>
    intro st k st' k' hpw hfr hinv hex hwk hok
    unfold assignAll at hok
    injection hok with h
    rw [Prod.mk.injEq] at h
    obtain ⟨hst, hk⟩ := h
    subst hst
    simp [hinv, hex, hwk]
  | cons d ds ih =>
    intro st k st' k' hpw hfr hinv hex hwk hok
    unfold assignAll at hok
    cases hday : assignDay mx mg rs (st, k) d with
    | error e =>
      rw [hday] at hok
      cases hok
    | ok x1 =>
      rw [hday] at hok
      obtain ⟨st1, k1⟩ := x1
      have hstep := assignDay_inv hmg hmx hinv hex hwk
        (fun p hp => hfr p hp d (List.mem_cons_self _ _)) hday
      obtain ⟨hinv1, hex1, hwk1, hdl1, hkeys1⟩ := hstep
      have hfr1 : ∀ p ∈ st1.sched, ∀ d2 ∈ ds, p.1 < d2 := by
        intro p hp d2 hd2
        have hkmem : p.1 ∈ st1.sched.map Prod.fst := List.mem_map_of_mem Prod.fst hp
        rw [hkeys1] at hkmem
        rcases List.mem_append.mp hkmem with hk' | hk'
        · obtain ⟨q, hq, hqk⟩ := List.mem_map.mp hk'
          rw [← hqk]
          exact hfr q hq d2 (List.mem_cons_of_mem _ hd2)
        · simp only [List.mem_singleton] at hk'
          rw [hk']
          exact (List.pairwise_cons.mp hpw).1 d2 hd2
      have hrec := ih st1 k1 st' k' (List.pairwise_cons.mp hpw).2 hfr1 hinv1 hex1 hwk1 hok
      obtain ⟨hinv', hex', hwk', hdl', hkeys'⟩ := hrec
      refine ⟨hinv', hex', hwk', by omega, ?_⟩
      rw [hkeys', hkeys1, List.append_assoc]
      rfl

/-! ### Rebalancer helper lemmas -/

theorem argminCnt_mem (cnt : List Int) (u : Nat) (us : List Nat) :
    argminCnt cnt u us ∈ u :: us := by
  induction us generalizing u with
  | nil => simp [argminCnt]
  | cons v vs ih =>
    unfold argminCnt
    by_cases h : cnt.getD v 0 < cnt.getD u 0
    · rw [if_pos h]
      rcases List.mem_cons.mp (ih v) with h' | h'
      · rw [h']
        simp
      · exact List.mem_cons_of_mem _ (List.mem_cons_of_mem _ h')
    · rw [if_neg h]
      rcases List.mem_cons.mp (ih u) with h' | h'
      · rw [h']
        exact List.mem_cons_self _ _
      · exact List.mem_cons_of_mem _ (List.mem_cons_of_mem _ h')

theorem nodup_set_of_not_mem {l : List Nat} {i : Nat} {v : Nat}
    (hnd : l.Nodup) (hv : v ∉ l) : (l.set i v).Nodup := by
  induction l generalizing i with
  | nil => simp
  | cons a rest ih =>
    cases i with
    | zero =>
      simp only [List.set_cons_zero]
      rw [List.nodup_cons]
      refine ⟨fun h => hv (List.mem_cons_of_mem _ h), (List.nodup_cons.mp hnd).2⟩
    | succ n =>
      simp only [List.set_cons_succ]
      rw [List.nodup_cons]
      obtain ⟨ha, hrest⟩ := List.nodup_cons.mp hnd
      refine ⟨?_, ih hrest (fun h => hv (List.mem_cons_of_mem _ h))⟩
      intro hmem
      rcases mem_set_elim hmem with rfl | ⟨q, hq, hqn, hql⟩
      · exact hv (List.mem_cons_self _ _)
      · exact ha (hql ▸ List.getElem_mem _)

/-- Distinct schedule positions carry distinct keys. -/
theorem keys_fst_ne {sched : List (Int × List Nat)}
    (h : (sched.map Prod.fst).Nodup) {q pos : Nat}
    (hq : q < sched.length) (hpos : pos < sched.length) (hne : q ≠ pos) :
    (sched[q]).1 ≠ (sched[pos]).1 := by
  intro he
  have hq' : q < (sched.map Prod.fst).length := by
    rw [List.length_map]
    exact hq
  have hpos' : pos < (sched.map Prod.fst).length := by
    rw [List.length_map]
    exact hpos
  have : (sched.map Prod.fst)[q] = (sched.map Prod.fst)[pos] := by
    rw [List.getElem_map, List.getElem_map]
    exact he
  exact hne (List.Nodup.getElem_inj_iff h |>.mp this)

/-- A generic invariant-preservation principle for `foldlM` over
`Except`. -/
theorem foldlM_except_inv {α β E : Type} (P : β → Prop) (f : β → α → Except E β)
    (l : List α) (hstep : ∀ b a b2, a ∈ l → P b → f b a = .ok b2 → P b2) :
    ∀ b b2, P b → l.foldlM f b = .ok b2 → P b2 := by
  induction l with
  | nil =>
    intro b b2 hb hok
    rw [List.foldlM_nil] at hok
    injection hok with h
    exact h ▸ hb
  | cons a rest ih =>
    intro b b2 hb hok
    rw [List.foldlM_cons] at hok
    cases hfa : f b a with
    | error e =>
      rw [hfa] at hok
      cases hok
    | ok b1 =>
      rw [hfa] at hok
      have hok2 : rest.foldlM f b1 = .ok b2 := hok
      exact ih (fun b' a' b2' ha' => hstep b' a' b2' (List.mem_cons_of_mem _ ha'))
        b1 b2 (hstep b a b1 (List.mem_cons_self _ _) hb hfa) hok2

theorem dAt_eq_getElem {st : SchedState} {j : Nat} (hj : j < st.doctors.length) :
    dAt st j = st.doctors[j] := by
  unfold dAt
  rw [List.getD_eq_getElem?_getD, List.getElem?_eq_getElem hj]
  rfl

theorem setSlot_length (sched : List (Int × List Nat)) (pos i newJ : Nat) :
    (setSlot sched pos i newJ).length = sched.length := by
  unfold setSlot
  exact List.length_set sched pos _

theorem setSlot_getD {sched : List (Int × List Nat)} {pos : Nat}
    (hpos : pos < sched.length) (i newJ : Nat) (q : Nat) :
    (setSlot sched pos i newJ).getD q (0, []) =
      if q = pos then ((sched.getD pos (0, [])).1, (sched.getD pos (0, [])).2.set i newJ)
      else sched.getD q (0, []) := by
  unfold setSlot
  by_cases hq : q = pos
  · subst hq
    rw [if_pos rfl, List.getD_eq_getElem?_getD, List.getElem?_set_self hpos]
    rfl
  · rw [if_neg hq, List.getD_eq_getElem?_getD,
      List.getElem?_set_ne (fun h => hq h.symm), ← List.getD_eq_getElem?_getD]

theorem setSlot_map_fst (sched : List (Int × List Nat)) (pos i newJ : Nat) :
    (setSlot sched pos i newJ).map Prod.fst = sched.map Prod.fst := by
  unfold setSlot
  by_cases hpos : pos < sched.length
  · apply List.ext_getElem?
    intro q
    rw [List.getElem?_map, List.getElem?_map]
    by_cases hq : pos = q
    · subst hq
      rw [List.getElem?_set_self hpos, List.getElem?_eq_getElem hpos]
      simp only [Option.map_some']
      rw [List.getD_eq_getElem?_getD, List.getElem?_eq_getElem hpos]
      rfl
    · rw [List.getElem?_set_ne hq]
  · rw [List.set_eq_of_length_le (by omega)]

theorem cntSync_length {st : SchedState} {cnt : List Int} (h : CntSync st cnt) :
    cnt.length = st.doctors.length := by
  rw [h, List.length_map]

theorem cntSync_getD {st : SchedState} {cnt : List Int} (h : CntSync st cnt)
    {j : Nat} (hj : j < st.doctors.length) :
    cnt.getD j 0 = ((dAt st j).shifts.length : Int) := by
  rw [h, List.getD_eq_getElem?_getD, List.getElem?_map, List.getElem?_eq_getElem hj]
  rw [dAt_eq_getElem hj]
  rfl

theorem getD_eq_of_lt {α : Type} {l : List α} {n : Nat} {d0 : α} (h : n < l.length) :
    l.getD n d0 = l[n] := by
  rw [List.getD_eq_getElem?_getD, List.getElem?_eq_getElem h]
  rfl

theorem getD_mem_of_lt {α : Type} {l : List α} {n : Nat} {d0 : α} (h : n < l.length) :
    l.getD n d0 ∈ l := by
  rw [getD_eq_of_lt h]
  exact List.getElem_mem h

theorem getD_set_ne {α : Type} (l : List α) (a : α) {i j : Nat} (h : i ≠ j) (d0 : α) :
    (l.set i a).getD j d0 = l.getD j d0 := by
  rw [List.getD_eq_getElem?_getD, List.getElem?_set_ne h, ← List.getD_eq_getElem?_getD]

theorem getD_set_self {α : Type} (l : List α) (a : α) {i : Nat} (h : i < l.length) (d0 : α) :
    (l.set i a).getD i d0 = a := by
  rw [List.getD_eq_getElem?_getD, List.getElem?_set_self h]
  rfl

/-- One rebalancing slot step preserves the global invariant, the count
bookkeeping, the schedule keys and the roster length. -/
theorem slotStep_inv {mx mg : Int} {avg : ℚ} {pos i : Nat} {st : SchedState}
    {cnt : List Int} {res : SchedState × List Int}
    (hmg : 0 ≤ mg) (hmx : 1 ≤ mx) (havg : 0 ≤ avg)
    (hpos : pos < st.sched.length)
    (hi : i < (st.sched.getD pos (0, [])).2.length)
    (hinv : SInv mx st) (hsync : CntSync st cnt)
    (hok : slotStep mx mg avg pos (st, cnt) i = .ok res) :
    SInv mx res.1 ∧ CntSync res.1 res.2 ∧
      res.1.sched.map Prod.fst = st.sched.map Prod.fst ∧
      res.1.doctors.length = st.doctors.length := by
  have hentry_eq : st.sched.getD pos (0, []) = st.sched[pos] := getD_eq_of_lt hpos
  have hentry_mem : st.sched.getD pos (0, []) ∈ st.sched := getD_mem_of_lt hpos
  unfold slotStep at hok
  simp only at hok
  by_cases hcond : ((cnt.getD ((st.sched.getD pos (0, [])).2.getD i 0) 0 : ℚ) > avg + 1)
  · rw [if_pos hcond] at hok
    cases hunder : (available_doctors mx mg st ((st.sched.getD pos (0, [])).1)).filter
        (fun j2 => ((cnt.getD j2 0 : ℚ) < avg - 1)) with
    | nil =>
      rw [hunder] at hok
      injection hok with h
      subst h
      exact ⟨hinv, hsync, rfl, rfl⟩
    | cons u us =>
      rw [hunder] at hok
      -- the occupant of the slot
      have hj_mem : (st.sched.getD pos (0, [])).2.getD i 0 ∈ (st.sched.getD pos (0, [])).2 :=
        getD_mem_of_lt hi
      obtain ⟨hjlen, hjd⟩ := hinv.mem_shifts _ hentry_mem _ hj_mem
      have hcJ : cnt.getD ((st.sched.getD pos (0, [])).2.getD i 0) 0 =
          ((dAt st ((st.sched.getD pos (0, [])).2.getD i 0)).shifts.length : Int) :=
        cntSync_getD hsync hjlen
      have hlen2 : 2 ≤ (dAt st ((st.sched.getD pos (0, [])).2.getD i 0)).shifts.length := by
        rw [hcJ] at hcond
        have h1 : (1 : ℚ) <
            ((dAt st ((st.sched.getD pos (0, [])).2.getD i 0)).shifts.length : ℚ) := by
          push_cast at hcond
          linarith
        have h2 := Nat.one_lt_cast.mp h1
        omega
      -- the replacement
      have hnewJ_under : argminCnt cnt u us ∈
          (available_doctors mx mg st ((st.sched.getD pos (0, [])).1)).filter
            (fun j2 => ((cnt.getD j2 0 : ℚ) < avg - 1)) := by
        rw [hunder]
        exact argminCnt_mem cnt u us
      have hnewJ_avail : argminCnt cnt u us ∈
          available_doctors mx mg st ((st.sched.getD pos (0, [])).1) :=
        List.mem_of_mem_filter hnewJ_under
      obtain ⟨hnewlen, hnewav⟩ := mem_available_doctors.mp hnewJ_avail
      have hnewcnt : ((cnt.getD (argminCnt cnt u us) 0 : Int) : ℚ) < avg - 1 := by
        have h2 := (List.mem_filter.mp hnewJ_under).2
        simp only [decide_eq_true_eq] at h2
        exact h2
      have hne : argminCnt cnt u us ≠ (st.sched.getD pos (0, [])).2.getD i 0 := by
        intro he
        rw [he, hcJ] at hnewcnt
        rw [hcJ] at hcond
        linarith
      -- the addShift facts for the replacement
      obtain ⟨hnewinv, hnewlt⟩ := addShift_docInv hmg hmx (hinv.docs _ hnewlen) hnewav
      -- the replacement is not already on this date
      have hnotslots : argminCnt cnt u us ∉ (st.sched.getD pos (0, [])).2 := by
        intro hmem
        obtain ⟨_, hd2⟩ := hinv.mem_shifts _ hentry_mem _ hmem
        exact absurd (hnewlt _ hd2) (lt_irrefl _)
      -- the erase succeeds
      cases heur : eraseShift ((st.sched.getD pos (0, [])).1)
          (st.doctors.getD ((st.sched.getD pos (0, [])).2.getD i 0) dummyDoc) with
      | error e =>
        rw [heur] at hok
        cases hok
      | ok docJ =>
        rw [heur] at hok
        injection hok with h
        subst h
        unfold eraseShift at heur
        rw [if_pos (show (st.sched.getD pos (0, [])).1 ∈
          (st.doctors.getD ((st.sched.getD pos (0, [])).2.getD i 0) dummyDoc).shifts from hjd)]
          at heur
        injection heur with heq
        have hdocJ : docJ = { st.doctors.getD ((st.sched.getD pos (0, [])).2.getD i 0) dummyDoc
            with shifts := (st.doctors.getD ((st.sched.getD pos (0, [])).2.getD i 0)
              dummyDoc).shifts.erase (st.sched.getD pos (0, [])).1 } := heq.symm
        clear heq
        set D := (st.sched.getD pos (0, [])).1 with hD
        set J := (st.sched.getD pos (0, [])).2.getD i 0 with hJ
        set N := argminCnt cnt u us with hN
        -- pointwise description of the updated roster
        have hds1N : (st.doctors.set J docJ).getD N dummyDoc = st.doctors.getD N dummyDoc :=
          getD_set_ne _ _ (fun h => hne h.symm) _
        have hds2len : ((st.doctors.set J docJ).set N
            (addShift D ((st.doctors.set J docJ).getD N dummyDoc))).length =
            st.doctors.length := by
          rw [List.length_set, List.length_set]
        have hgd : ∀ q : Nat,
            ((st.doctors.set J docJ).set N
              (addShift D ((st.doctors.set J docJ).getD N dummyDoc))).getD q dummyDoc =
              if q = N then addShift D (st.doctors.getD N dummyDoc)
              else if q = J then docJ
              else st.doctors.getD q dummyDoc := by
          intro q
          by_cases hqN : q = N
          · subst hqN
            rw [if_pos rfl]
            rw [getD_set_self _ _ (by rw [List.length_set]; exact hnewlen) _, hds1N]
          · by_cases hqJ : q = J
            · subst hqJ
              rw [if_neg hqN, if_pos rfl]
              rw [getD_set_ne _ _ (fun h => hqN h.symm) _, getD_set_self _ _ hjlen _]
            · rw [if_neg hqN, if_neg hqJ]
              rw [getD_set_ne _ _ (fun h => hqN h.symm) _, getD_set_ne _ _ (fun h => hqJ h.symm) _]
        have hdocJ_inv : DocInv mx docJ := by
          rw [hdocJ]
          exact erase_docInv (hinv.docs J hjlen) hlen2
        have hslots_nd : (st.sched.getD pos (0, [])).2.Nodup :=
          hinv.slots_nodup _ hentry_mem
        have hJ_eq : J = (st.sched.getD pos (0, [])).2[i] := by
          rw [hJ, getD_eq_of_lt hi]
        refine ⟨⟨?_, ?_, ?_, ?_, ?_⟩, ?_, ?_, ?_⟩
        · -- docs
          intro q hq
          dsimp only at hq ⊢
          unfold dAt
          dsimp only
          rw [hgd q]
          by_cases hqN : q = N
          · rw [if_pos hqN]
            exact hnewinv
          · rw [if_neg hqN]
            by_cases hqJ : q = J
            · rw [if_pos hqJ]
              exact hdocJ_inv
            · rw [if_neg hqJ]
              rw [hds2len] at hq
              exact hinv.docs q hq
        · -- mem_shifts
          intro p hp j2 hj2
          dsimp only at hp ⊢
          unfold setSlot at hp
          rcases mem_set_elim hp with rfl | ⟨q, hq, hqpos, hqe⟩
          · -- the modified entry
            dsimp only at hj2
            rcases mem_set_elim hj2 with rfl | ⟨q2, hq2, hq2i, hq2e⟩
            · -- the freshly inserted doctor
              refine ⟨by rw [hds2len]; exact hnewlen, ?_⟩
              unfold dAt
              dsimp only
              rw [hgd N, if_pos rfl]
              simp only [addShift]
              exact List.mem_append.mpr (Or.inr (List.mem_singleton_self _))
            · -- an untouched slot of the same entry
              have hj2slots : j2 ∈ (st.sched.getD pos (0, [])).2 :=
                hq2e ▸ List.getElem_mem hq2
              obtain ⟨hl2, hm2⟩ := hinv.mem_shifts _ hentry_mem _ hj2slots
              have hj2N : j2 ≠ N := fun h => hnotslots (h ▸ hj2slots)
              have hj2J : j2 ≠ J := by
                intro h
                apply hq2i
                have hih : i < (st.sched.getD pos (0, [])).2.length := hi
                have := (List.Nodup.getElem_inj_iff hslots_nd).mp
                  (show (st.sched.getD pos (0, [])).2[q2] =
                    (st.sched.getD pos (0, [])).2[i] from by rw [hq2e, h, hJ_eq])
                exact this
              refine ⟨by rw [hds2len]; exact hl2, ?_⟩
              unfold dAt
              dsimp only
              rw [hgd j2, if_neg hj2N, if_neg hj2J]
              exact hm2
          · -- an untouched entry
            have hpmem : p ∈ st.sched := hqe ▸ List.getElem_mem hq
            obtain ⟨hl2, hm2⟩ := hinv.mem_shifts p hpmem j2 hj2
            refine ⟨by rw [hds2len]; exact hl2, ?_⟩
            unfold dAt
            dsimp only
            rw [hgd j2]
            by_cases hq2N : j2 = N
            · rw [if_pos hq2N]
              simp only [addShift]
              refine List.mem_append.mpr (Or.inl ?_)
              rw [← hq2N]
              exact hm2
            · rw [if_neg hq2N]
              by_cases hq2J : j2 = J
              · rw [if_pos hq2J, hdocJ]
                have hkeyne : p.1 ≠ D := by
                  rw [hD, hentry_eq, ← hqe]
                  exact keys_fst_ne hinv.keys_nodup hq hpos hqpos
                have hmm : p.1 ∈ (st.doctors.getD J dummyDoc).shifts := by
                  rw [← hq2J]
                  exact hm2
                dsimp only
                exact (List.mem_erase_of_ne hkeyne).mpr hmm
              · rw [if_neg hq2J]
                exact hm2
        · -- slots_nodup
          intro p hp
          dsimp only at hp
          unfold setSlot at hp
          rcases mem_set_elim hp with rfl | ⟨q, hq, hqpos, hqe⟩
          · exact nodup_set_of_not_mem hslots_nd hnotslots
          · exact hinv.slots_nodup p (hqe ▸ List.getElem_mem hq)
        · -- slots_len
          intro p hp
          dsimp only at hp
          unfold setSlot at hp
          rcases mem_set_elim hp with rfl | ⟨q, hq, hqpos, hqe⟩
          · dsimp only
            rw [List.length_set]
            exact hinv.slots_len _ hentry_mem
          · exact hinv.slots_len p (hqe ▸ List.getElem_mem hq)
        · -- keys_nodup
          dsimp only
          rw [setSlot_map_fst]
          exact hinv.keys_nodup
        · -- CntSync
          show CntSync _ _
          unfold CntSync
          dsimp only
          apply List.ext_getElem?
          intro q
          rw [List.getElem?_map]
          have hcntlen : cnt.length = st.doctors.length := cntSync_length hsync
          by_cases hqN : q = N
          · subst hqN
            rw [List.getElem?_set_self (by rw [List.length_set, hcntlen]; exact hnewlen)]
            rw [List.getElem?_set_self (by rw [List.length_set]; exact hnewlen)]
            rw [hds1N]
            simp only [Option.map_some']
            have hcN : cnt.getD N 0 = ((dAt st N).shifts.length : Int) :=
              cntSync_getD hsync hnewlen
            rw [hcN]
            have : (addShift D (st.doctors.getD N dummyDoc)).shifts.length =
                (st.doctors.getD N dummyDoc).shifts.length + 1 := by
              simp [addShift]
            rw [this]
            unfold dAt
            push_cast
            ring_nf
          · rw [List.getElem?_set_ne (fun h => hqN h.symm),
              List.getElem?_set_ne (fun h => hqN h.symm)]
            by_cases hqJ : q = J
            · subst hqJ
              rw [List.getElem?_set_self (by rw [hcntlen]; exact hjlen)]
              rw [List.getElem?_set_self hjlen]
              simp only [Option.map_some']
              have hcJ2 : cnt.getD J 0 = ((dAt st J).shifts.length : Int) :=
                cntSync_getD hsync hjlen
              rw [hcJ2, hdocJ]
              have herlen : ((st.doctors.getD J dummyDoc).shifts.erase D).length =
                  (st.doctors.getD J dummyDoc).shifts.length - 1 :=
                List.length_erase_of_mem hjd
              dsimp only
              rw [herlen]
              unfold dAt
              have hge : 1 ≤ (st.doctors.getD J dummyDoc).shifts.length := by
                have h22 : 2 ≤ (dAt st J).shifts.length := hlen2
                unfold dAt at h22
                omega
              congr 1
              omega
            · rw [List.getElem?_set_ne (fun h => hqJ h.symm),
                List.getElem?_set_ne (fun h => hqJ h.symm)]
              rw [hsync, List.getElem?_map]
        · -- schedule keys unchanged
          dsimp only
          rw [setSlot_map_fst]
        · -- roster length unchanged
          dsimp only
          exact hds2len
  · rw [if_neg hcond] at hok
    injection hok with h
    subst h
    exact ⟨hinv, hsync, rfl, rfl⟩

/-- Entries at the same position of two invariant states with equal key
lists have equal slot counts. -/
theorem entry_len_eq {mx : Int} {sta stb : SchedState}
    (ha : SInv mx sta) (hb : SInv mx stb)
    (hk : sta.sched.map Prod.fst = stb.sched.map Prod.fst)
    (pos : Nat) (hpos : pos < stb.sched.length) :
    (sta.sched.getD pos (0, [])).2.length = (stb.sched.getD pos (0, [])).2.length := by
  have hlen : sta.sched.length = stb.sched.length := by
    have h2 := congrArg List.length hk
    simpa using h2
  have hpa : pos < sta.sched.length := by omega
  have h1 : (sta.sched.map Prod.fst)[pos]? = (stb.sched.map Prod.fst)[pos]? := by
    rw [hk]
  rw [List.getElem?_map, List.getElem?_map, List.getElem?_eq_getElem hpa,
    List.getElem?_eq_getElem hpos] at h1
  simp only [Option.map_some', Option.some.injEq] at h1
  rw [getD_eq_of_lt hpa, getD_eq_of_lt hpos]
  rw [ha.slots_len _ (List.getElem_mem hpa), hb.slots_len _ (List.getElem_mem hpos), h1]

/-- One `_balance_schedule` pass preserves the invariant, the schedule
keys and the roster length. -/
theorem balance_pass_inv {mx mg : Int} {st st' : SchedState}
    (hmg : 0 ≤ mg) (hmx : 1 ≤ mx)
    (hinv : SInv mx st) (hok : balance_pass mx mg st = .ok st') :
    SInv mx st' ∧ st'.sched.map Prod.fst = st.sched.map Prod.fst ∧
      st'.doctors.length = st.doctors.length := by
  unfold balance_pass at hok
  by_cases hn : st.doctors.length = 0
  · rw [if_pos hn] at hok
    cases hok
  · rw [if_neg hn] at hok
    simp only at hok
    have havg : (0:ℚ) ≤ (((st.doctors.map (fun doc => (doc.shifts.length : Int))).sum : ℚ) /
        (st.doctors.length : ℚ)) := by
      apply div_nonneg
      · have hsum : (0:Int) ≤ (st.doctors.map (fun doc => (doc.shifts.length : Int))).sum := by
          apply List.sum_nonneg
          intro x hx
          obtain ⟨doc, hdoc, hxe⟩ := List.mem_map.mp hx
          rw [← hxe]
          exact Int.natCast_nonneg _
        exact_mod_cast hsum
      · exact Nat.cast_nonneg _
    cases hfold : (List.range st.sched.length).foldlM
        (fun x pos => (List.range ((x.1.sched.getD pos (0, [])).2.length)).foldlM
          (slotStep mx mg (((st.doctors.map (fun doc => (doc.shifts.length : Int))).sum : ℚ) /
            (st.doctors.length : ℚ)) pos) x)
        (st, st.doctors.map (fun doc => (doc.shifts.length : Int))) with
    | error e =>
      rw [hfold] at hok
      cases hok
    | ok x =>
      rw [hfold] at hok
      simp only [Except.map] at hok
      injection hok with h
      have hP := foldlM_except_inv
        (fun y => SInv mx y.1 ∧ CntSync y.1 y.2 ∧
          y.1.sched.map Prod.fst = st.sched.map Prod.fst ∧
          y.1.doctors.length = st.doctors.length)
        (fun x2 pos => (List.range ((x2.1.sched.getD pos (0, [])).2.length)).foldlM
          (slotStep mx mg (((st.doctors.map (fun doc => (doc.shifts.length : Int))).sum : ℚ) /
            (st.doctors.length : ℚ)) pos) x2)
        (List.range st.sched.length)
        ?_ (st, st.doctors.map (fun doc => (doc.shifts.length : Int))) x
        ⟨hinv, by unfold CntSync; rfl, rfl, rfl⟩ hfold
      · rw [← h]
        exact ⟨hP.1, hP.2.2.1, hP.2.2.2⟩
      · intro b pos b2 hposmem hPb hfb
        have hposlt : pos < st.sched.length := List.mem_range.mp hposmem
        refine foldlM_except_inv
          (fun y => SInv mx y.1 ∧ CntSync y.1 y.2 ∧
            y.1.sched.map Prod.fst = st.sched.map Prod.fst ∧
            y.1.doctors.length = st.doctors.length) _ _ ?_ b b2 hPb hfb
        intro y iidx y2 hi2 hPy hs
        have hkeysy : y.1.sched.map Prod.fst = st.sched.map Prod.fst := hPy.2.2.1
        have hposy : pos < y.1.sched.length := by
          have h2 := congrArg List.length hkeysy
          simp only [List.length_map] at h2
          omega
        have hient : iidx < (y.1.sched.getD pos (0, [])).2.length := by
          have hilt : iidx < (b.1.sched.getD pos (0, [])).2.length := List.mem_range.mp hi2
          have hee := entry_len_eq hPy.1 hPb.1
            (by rw [hkeysy, hPb.2.2.1]) pos (by
              have h2 := congrArg List.length hPb.2.2.1
              simp only [List.length_map] at h2
              omega)
          omega
        have hslot := slotStep_inv hmg hmx havg hposy hient hPy.1 hPy.2.1
          (show slotStep mx mg _ pos (y.1, y.2) iidx = .ok y2 from hs)
        exact ⟨hslot.1, hslot.2.1, by rw [hslot.2.2.1, hkeysy],
          by rw [hslot.2.2.2, hPy.2.2.2]⟩

/-- All three rebalancing passes preserve the invariant, the schedule
keys and the roster length. -/
theorem balance_schedule_inv {mx mg : Int} {st st' : SchedState}
    (hmg : 0 ≤ mg) (hmx : 1 ≤ mx)
    (hinv : SInv mx st) (hok : balance_schedule mx mg st = .ok st') :
    SInv mx st' ∧ st'.sched.map Prod.fst = st.sched.map Prod.fst ∧
      st'.doctors.length = st.doctors.length := by
  unfold balance_schedule at hok
  cases h1 : balance_pass mx mg st with
  | error e =>
    rw [h1] at hok
    cases hok
  | ok st1 =>
    rw [h1] at hok
    have hok1 : (do
        let st2 ← balance_pass mx mg st1
        balance_pass mx mg st2) = Except.ok st' := hok
    cases h2 : balance_pass mx mg st1 with
    | error e =>
      rw [h2] at hok1
      cases hok1
    | ok st2 =>
      rw [h2] at hok1
      have hok2 : balance_pass mx mg st2 = Except.ok st' := hok1
      obtain ⟨ha1, ha2, ha3⟩ := balance_pass_inv hmg hmx hinv h1
      obtain ⟨hb1, hb2, hb3⟩ := balance_pass_inv hmg hmx ha1 h2
      obtain ⟨hc1, hc2, hc3⟩ := balance_pass_inv hmg hmx hb1 hok2
      exact ⟨hc1, by rw [hc2, hb2, ha2], by omega⟩

theorem docInv_reset {mx : Int} (hmx : 1 ≤ mx) (doc : Doc) :
    DocInv mx (resetDoc doc) := by
  refine ⟨?_, ?_, ?_, ?_⟩
  · simp [resetDoc]
  · intro l hl s hs
    simp only [resetDoc] at hs
    cases hs
  · simp [resetDoc]
  · intro t
    show ((weekCount [] t : Nat) : Int) ≤ mx
    rw [weekCount_nil]
    omega

theorem map_resetDoc_getD {doctors : List Doc} {j : Nat} (hj : j < doctors.length) :
    (doctors.map resetDoc).getD j dummyDoc = resetDoc (doctors.getD j dummyDoc) := by
  rw [List.getD_eq_getElem?_getD, List.getElem?_map, List.getElem?_eq_getElem hj,
    getD_eq_of_lt hj]
  rfl

/-- The reset state at the start of a generation run satisfies all the
invariants. -/
theorem reset_inv (mx : Int) (hmx : 1 ≤ mx) (doctors : List Doc) :
    SInv mx ⟨doctors.map resetDoc, []⟩ ∧ DocsExact ⟨doctors.map resetDoc, []⟩ ∧
      DocsWknd ⟨doctors.map resetDoc, []⟩ := by
  refine ⟨⟨?_, ?_, ?_, ?_, ?_⟩, ?_, ?_⟩
  · intro j hj
    unfold dAt
    dsimp only at hj ⊢
    rw [List.length_map] at hj
    rw [map_resetDoc_getD hj]
    exact docInv_reset hmx _
  · intro p hp
    cases hp
  · intro p hp
    cases hp
  · intro p hp
    cases hp
  · simp
  · intro j hj
    unfold dAt
    dsimp only at hj ⊢
    rw [List.length_map] at hj
    rw [map_resetDoc_getD hj]
    intro l hl
    cases hl
  · intro j hj
    unfold dAt WkndChain
    dsimp only at hj ⊢
    rw [List.length_map] at hj
    rw [map_resetDoc_getD hj]
    simp [resetDoc]

/-- Master invariant theorem: a successful generation run yields a state
satisfying the global invariant whose schedule keys are exactly the
requested date range. -/
theorem generate_inv {mx mg : Int} {rs : Nat → ℚ} {doctors : List Doc}
    {s e : Int} {b : Bool} {st : SchedState}
    (hmg : 0 ≤ mg) (hmx : 1 ≤ mx)
    (hok : generate_schedule rs doctors s e mx mg = .ok (b, st)) :
    SInv mx st ∧ st.sched.map Prod.fst = dateRange s e ∧
      st.doctors.length = doctors.length ∧ b = true := by
  unfold generate_schedule at hok
  simp only at hok
  cases h1 : assignAll mx mg rs (⟨doctors.map resetDoc, []⟩, 0) (dateRange s e) with
  | error e2 =>
    rw [h1] at hok
    cases hok
  | ok x1 =>
    rw [h1] at hok
    have hok1 : (do
        let st2 ← balance_schedule mx mg x1.1
        return (true, st2)) = Except.ok (b, st) := hok
    cases h2 : balance_schedule mx mg x1.1 with
    | error e2 =>
      rw [h2] at hok1
      cases hok1
    | ok st2 =>
      rw [h2] at hok1
      have hok2 : Except.ok ((true : Bool), st2) = Except.ok (b, st) := hok1
      injection hok2 with h3
      rw [Prod.mk.injEq] at h3
      obtain ⟨hb, hst⟩ := h3
      obtain ⟨hr1, hr2, hr3⟩ := reset_inv mx hmx doctors
      obtain ⟨hA1, hA2, hA3, hA4, hA5⟩ := assignAll_inv hmg hmx (dateRange s e)
        ⟨doctors.map resetDoc, []⟩ 0 x1.1 x1.2 (dateRange_pairwise s e)
        (by intro p hp; cases hp) hr1 hr2 hr3 (by rw [← h1])
      obtain ⟨hB1, hB2, hB3⟩ := balance_schedule_inv hmg hmx hA1 h2
      subst hst
      refine ⟨hB1, ?_, ?_, hb.symm⟩
      · rw [hB2, hA5]
        simp
      · rw [hB3, hA4]
        simp

/-! ### Behaviour on an empty date range and the returned boolean -/

theorem dateRange_nil {s e : Int} (hlt : e < s) : dateRange s e = [] := by
  unfold dateRange
  have h0 : (e + 1 - s).toNat = 0 := by omega
  rw [h0]
  rfl

theorem balance_pass_empty_sched {mx mg : Int} {doctors : List Doc}
    (hne : doctors ≠ []) :
    balance_pass mx mg ⟨doctors.map resetDoc, []⟩ = .ok ⟨doctors.map resetDoc, []⟩ := by
  have h0 : ¬ ((⟨doctors.map resetDoc, []⟩ : SchedState).doctors.length = 0) := by
    dsimp only
    rw [List.length_map]
    intro h
    exact hne (List.length_eq_zero.mp h)
  unfold balance_pass
  rw [if_neg h0]
  rfl

theorem balance_schedule_empty_sched {mx mg : Int} {doctors : List Doc}
    (hne : doctors ≠ []) :
    balance_schedule mx mg ⟨doctors.map resetDoc, []⟩ = .ok ⟨doctors.map resetDoc, []⟩ := by
  unfold balance_schedule
  rw [balance_pass_empty_sched hne]
  show (do
    let st2 ← balance_pass mx mg (⟨doctors.map resetDoc, []⟩ : SchedState)
    balance_pass mx mg st2) = _
  rw [balance_pass_empty_sched hne]
  show balance_pass mx mg (⟨doctors.map resetDoc, []⟩ : SchedState) = _
  exact balance_pass_empty_sched hne

/-- With a nonempty roster and an end date before the start date, the
engine reports success with an empty schedule (no parameter validation
occurs, whatever the caps and gaps are). -/
theorem generate_empty_range {rs : Nat → ℚ} {doctors : List Doc} {s e mx mg : Int}
    (hne : doctors ≠ []) (hlt : e < s) :
    generate_schedule rs doctors s e mx mg = .ok (true, ⟨doctors.map resetDoc, []⟩) := by
  unfold generate_schedule
  simp only
  rw [dateRange_nil hlt]
  show (do
    let st2 ← balance_schedule mx mg (⟨doctors.map resetDoc, []⟩ : SchedState)
    return ((true : Bool), st2)) = _
  rw [balance_schedule_empty_sched hne]
  rfl

/-- `generate_schedule` can only return `True` as its boolean result. -/
theorem generate_ok_fst {mx mg : Int} {rs : Nat → ℚ} {doctors : List Doc} {s e : Int}
    {p : Bool × SchedState}
    (hok : generate_schedule rs doctors s e mx mg = .ok p) : p.1 = true := by
  unfold generate_schedule at hok
  simp only at hok
  cases h1 : assignAll mx mg rs (⟨doctors.map resetDoc, []⟩, 0) (dateRange s e) with
  | error e2 =>
    rw [h1] at hok
    cases hok
  | ok x1 =>
    rw [h1] at hok
    have hok1 : (do
        let st2 ← balance_schedule mx mg x1.1
        return ((true : Bool), st2)) = Except.ok p := hok
    cases h2 : balance_schedule mx mg x1.1 with
    | error e2 =>
      rw [h2] at hok1
      cases hok1
    | ok st2 =>
      rw [h2] at hok1
      have hok2 : Except.ok ((true : Bool), st2) = Except.ok p := hok1
      injection hok2 with h3
      rw [← h3]

/-- The availability recheck fails for anyone whose `last_shift` is on or
after the date under consideration (with a nonnegative minimum gap). -/
theorem is_available_stale {mx mg : Int} {doc : Doc} {d l : Int} (hmg : 0 ≤ mg)
    (hl : doc.last_shift = some l) (hld : d ≤ l) : is_available mx mg doc d = false := by
  unfold is_available
  by_cases hv : d ∈ doc.vacation_days ∨ d ∈ doc.mobile_team_days
  · rw [if_pos hv]
  · rw [if_neg hv, hl]
    show (decide (d - l > mg) && decide ((weekCount doc.shifts d : Int) < mx)) = false
    have hdec : decide (d - l > mg) = false := by
      simp only [decide_eq_false_iff_not]
      omega
    rw [hdec, Bool.false_and]

/-! ### The claims -/

/-- C1: after `generate_schedule` completes successfully (the rebalancing
passes included), the schedule's keys are exactly the dates of the
closed range `[start_date, end_date]`, each with exactly one entry; the
entry of a weekday has length 1 and that of a weekend day (Friday or
Saturday) has length 2; no date outside the range appears. -/
theorem C1_schedule_shape (rs : Nat → ℚ) (doctors : List Doc) (s e mx mg : Int)
    (b : Bool) (st : SchedState) (hmg : 0 ≤ mg) (hmx : 1 ≤ mx)
    (hok : generate_schedule rs doctors s e mx mg = .ok (b, st)) :
    st.sched.map Prod.fst = dateRange s e ∧
    (st.sched.map Prod.fst).Nodup ∧
    (∀ d : Int, d ∈ st.sched.map Prod.fst ↔ (s ≤ d ∧ d ≤ e)) ∧
    (∀ p ∈ st.sched, p.2.length = if isWeekendDay p.1 then 2 else 1) := by
  obtain ⟨hinv, hkeys, hlen, hb⟩ := generate_inv hmg hmx hok
  refine ⟨hkeys, by rw [hkeys]; exact dateRange_nodup s e, ?_, hinv.slots_len⟩
  intro d
  rw [hkeys]
  exact mem_dateRange

set_option maxRecDepth 100000 in
theorem C1_schedule_shape_witness :
    (0 : Int) ≤ 1 ∧ (1 : Int) ≤ 2 ∧
    generate_schedule rng0 twoDocs 0 1 2 1 = .ok (true, witState) ∧
    (witState.sched.map Prod.fst = dateRange 0 1 ∧
      (witState.sched.map Prod.fst).Nodup ∧
      (∀ d : Int, d ∈ witState.sched.map Prod.fst ↔ ((0:Int) ≤ d ∧ d ≤ 1)) ∧
      (∀ p ∈ witState.sched, p.2.length = if isWeekendDay p.1 then 2 else 1)) :=
  ⟨by decide, by decide, by decide,
    C1_schedule_shape rng0 twoDocs 0 1 2 1 true witState (by decide) (by decide) (by decide)⟩

/-- C2: `_is_available` holds exactly when the date avoids the vacation
and mobile-rotation days and either there is no prior assignment, or the
gap since the last assignment strictly exceeds the minimum and the
rolling 7-day count is strictly below the cap.  In particular, with a
minimum gap of 3, a doctor last assigned exactly 3 days earlier is
unavailable, while 4 days earlier is available. -/
theorem C2_is_available_characterisation :
    (∀ (mx mg : Int) (doc : Doc) (d : Int),
      is_available mx mg doc d = true ↔
        (d ∉ doc.vacation_days ∧ d ∉ doc.mobile_team_days ∧
          (doc.last_shift = none ∨ ∃ l, doc.last_shift = some l ∧ mg < d - l ∧
            (weekCount doc.shifts d : Int) < mx))) ∧
    is_available 2 3 gapDoc 4 = false ∧
    is_available 2 3 gapDoc 5 = true := by
  refine ⟨?_, by decide, by decide⟩
  intro mx mg doc d
  constructor
  · intro hav
    unfold is_available at hav
    by_cases hv : d ∈ doc.vacation_days ∨ d ∈ doc.mobile_team_days
    · rw [if_pos hv] at hav
      cases hav
    · rw [if_neg hv] at hav
      rw [not_or] at hv
      refine ⟨hv.1, hv.2, ?_⟩
      cases hls : doc.last_shift with
      | none => exact Or.inl rfl
      | some l =>
        rw [hls] at hav
        have hav2 : (decide (d - l > mg) && decide ((weekCount doc.shifts d : Int) < mx)) =
            true := hav
        simp only [Bool.and_eq_true, decide_eq_true_eq] at hav2
        exact Or.inr ⟨l, rfl, by omega, hav2.2⟩
  · rintro ⟨hv1, hv2, hrest⟩
    unfold is_available
    rw [if_neg (by rw [not_or]; exact ⟨hv1, hv2⟩)]
    rcases hrest with hnone | ⟨l, hl, hgap, hcnt⟩
    · rw [hnone]
    · rw [hl]
      show (decide (d - l > mg) && decide ((weekCount doc.shifts d : Int) < mx)) = true
      simp only [Bool.and_eq_true, decide_eq_true_eq]
      exact ⟨by omega, hcnt⟩

/-- C3: a weekend day with fewer than 2 availability-and-eligibility
filtered candidates, or a weekday with no available candidate, makes the
run fail with an allocation error carrying that date (so no schedule is
produced); a one-doctor roster over the single weekend day 4 fails with
the weekend allocation error naming day 4. -/
theorem C3_allocation_errors :
    (∀ (mx mg : Int) (rs : Nat → ℚ) (st : SchedState) (k : Nat) (d : Int),
      isWeekendDay d = true →
      ((available_doctors mx mg st d).filter
        (fun j => is_weekend_eligible (st.doctors.getD j dummyDoc) d)).length < 2 →
      assignDay mx mg rs (st, k) d = .error (.allocWeekend d)) ∧
    (∀ (mx mg : Int) (rs : Nat → ℚ) (st : SchedState) (k : Nat) (d : Int),
      isWeekendDay d = false →
      (available_doctors mx mg st d).length = 0 →
      assignDay mx mg rs (st, k) d = .error (.allocWeekday d)) ∧
    generate_schedule rng0 [soloDoc] 4 4 2 3 = .error (.allocWeekend 4) := by
  refine ⟨?_, ?_, by decide⟩
  · intro mx mg rs st k d hwd hlt
    unfold assignDay
    simp only
    rw [if_pos hwd, if_pos hlt]
  · intro mx mg rs st k d hwd h0
    unfold assignDay
    simp only
    rw [if_neg (by simp [hwd]), if_pos h0]

theorem C3_allocation_errors_witness :
    isWeekendDay 4 = true ∧
    ((available_doctors 2 3 ⟨[soloDoc], []⟩ 4).filter
      (fun j => is_weekend_eligible
        ((⟨[soloDoc], []⟩ : SchedState).doctors.getD j dummyDoc) 4)).length < 2 ∧
    assignDay 2 3 rng0 (⟨[soloDoc], []⟩, 0) 4 = .error (.allocWeekend 4) :=
  ⟨by decide, by decide,
    C3_allocation_errors.1 2 3 rng0 ⟨[soloDoc], []⟩ 0 4 (by decide) (by decide)⟩

/-- C4: in the final state after the three rebalancing passes, every
7-day window (the days `[t-6, t]`, for every `t`) contains at most
`max_oncalls_per_week` of any one doctor's assignments. -/
theorem C4_weekly_cap (rs : Nat → ℚ) (doctors : List Doc) (s e mx mg : Int)
    (b : Bool) (st : SchedState) (hmg : 0 ≤ mg) (hmx : 1 ≤ mx)
    (hok : generate_schedule rs doctors s e mx mg = .ok (b, st)) :
    ∀ j, j < st.doctors.length → ∀ t : Int,
      (weekCount (dAt st j).shifts t : Int) ≤ mx := by
  obtain ⟨hinv, h2, h3, h4⟩ := generate_inv hmg hmx hok
  exact fun j hj t => (hinv.docs j hj).weekly t

set_option maxRecDepth 100000 in
theorem C4_weekly_cap_witness :
    (0 : Int) ≤ 1 ∧ (1 : Int) ≤ 2 ∧
    generate_schedule rng0 twoDocs 0 1 2 1 = .ok (true, witState) ∧
    (∀ j, j < witState.doctors.length → ∀ t : Int,
      (weekCount (dAt witState j).shifts t : Int) ≤ 2) :=
  ⟨by decide, by decide, by decide,
    C4_weekly_cap rng0 twoDocs 0 1 2 1 true witState (by decide) (by decide) (by decide)⟩

set_option maxRecDepth 1000000 in
set_option maxHeartbeats 1000000 in
/-- C5 fails on the code: on the `cexDoctors` roster the rebalancer
swaps doctor "A" (weekend shift on day 4) into the weekend slot of day
11, leaving two weekend assignments only 7 days apart in the final
schedule. -/
theorem C5_weekend_cooldown_cex :
    (Except.map (fun p => ((p.2.doctors.getD 0 dummyDoc).shifts.filter
        (fun s2 => isWeekendDay s2)))
      (generate_schedule rng0 cexDoctors 0 17 7 1)) = .ok [4, 11] ∧
    ¬ List.Chain' (fun a b => a + weekend_cooldown ≤ b) ([4, 11] : List Int) := by
  refine ⟨by decide, ?_⟩
  intro h
  have h3 : (4 : Int) + weekend_cooldown ≤ 11 := (List.chain'_cons.mp h).1
  unfold weekend_cooldown at h3
  omega

/-- C5 (amended): before the rebalancing passes — that is, in the state
produced by the assignment loop — any two consecutive weekend (Friday or
Saturday) assignments of one person are at least 14 days apart; the
rebalancing passes do not re-check this and can violate it. -/
theorem C5_weekend_cooldown_amended (mx mg : Int) (rs : Nat → ℚ)
    (doctors : List Doc) (s e : Int) (st1 : SchedState) (k1 : Nat)
    (hmg : 0 ≤ mg) (hmx : 1 ≤ mx)
    (hok : assignAll mx mg rs (⟨doctors.map resetDoc, []⟩, 0) (dateRange s e) =
      .ok (st1, k1)) :
    ∀ j, j < st1.doctors.length →
      List.Chain' (fun a b => a + weekend_cooldown ≤ b)
        ((dAt st1 j).shifts.filter (fun s2 => isWeekendDay s2)) := by
  obtain ⟨hr1, hr2, hr3⟩ := reset_inv mx hmx doctors
  obtain ⟨h1, h2, h3, h4, h5⟩ := assignAll_inv hmg hmx (dateRange s e)
    ⟨doctors.map resetDoc, []⟩ 0 st1 k1 (dateRange_pairwise s e)
    (by intro p hp; cases hp) hr1 hr2 hr3 hok
  exact h3

set_option maxRecDepth 100000 in
theorem C5_weekend_cooldown_amended_witness :
    (0 : Int) ≤ 1 ∧ (1 : Int) ≤ 2 ∧
    assignAll 2 1 rng0 (⟨twoDocs.map resetDoc, []⟩, 0) (dateRange 0 1) =
      .ok (⟨witState.doctors, witState.sched⟩, 3) ∧
    (∀ j, j < witState.doctors.length →
      List.Chain' (fun a b => a + weekend_cooldown ≤ b)
        ((dAt witState j).shifts.filter (fun s2 => isWeekendDay s2))) :=
  ⟨by decide, by decide, by decide,
    C5_weekend_cooldown_amended 2 1 rng0 twoDocs 0 1 ⟨witState.doctors, witState.sched⟩ 3
      (by decide) (by decide) (by decide)⟩

set_option maxRecDepth 1000000 in
set_option maxHeartbeats 1000000 in
/-- C6 fails on the code: on the `cexDoctors` roster the rebalancer
removes day 11 (doctor "O"'s most recent date) from O's history while
leaving `last_shift = 11`, so the final last-assigned date is neither a
member nor the maximum of the history. -/
theorem C6_last_shift_cex :
    (Except.map (fun p => ((p.2.doctors.getD 7 dummyDoc).last_shift,
        (p.2.doctors.getD 7 dummyDoc).shifts))
      (generate_schedule rng0 cexDoctors 0 17 7 1)) = .ok (some 11, [0, 2, 6, 8]) ∧
    (11 : Int) ∉ ([0, 2, 6, 8] : List Int) ∧
    listMax [0, 2, 6, 8] = some 8 :=
  ⟨by decide, by decide, by decide⟩

/-- C6 (amended): throughout the assignment loop every doctor's
`last_shift` is exactly the maximum of the history (and `none` exactly
when the history is empty); the rebalancing swaps preserve only the
weaker invariant that `last_shift` is an upper bound of the history — a
swap that removes the over-loaded doctor's most recent date leaves
`last_shift` strictly above the remaining history. -/
theorem C6_last_shift_amended :
    (∀ (mx mg : Int) (rs : Nat → ℚ) (doctors : List Doc) (s e : Int)
      (st1 : SchedState) (k1 : Nat), 0 ≤ mg → 1 ≤ mx →
      assignAll mx mg rs (⟨doctors.map resetDoc, []⟩, 0) (dateRange s e) =
        .ok (st1, k1) →
      ∀ j, j < st1.doctors.length →
        ((dAt st1 j).last_shift = none ↔ (dAt st1 j).shifts = []) ∧
        (∀ l, (dAt st1 j).last_shift = some l →
          l ∈ (dAt st1 j).shifts ∧ ∀ s2 ∈ (dAt st1 j).shifts, s2 ≤ l)) ∧
    (∀ (mx mg : Int) (rs : Nat → ℚ) (doctors : List Doc) (s e : Int)
      (b : Bool) (st : SchedState), 0 ≤ mg → 1 ≤ mx →
      generate_schedule rs doctors s e mx mg = .ok (b, st) →
      ∀ j, j < st.doctors.length →
        ((dAt st j).last_shift = none ↔ (dAt st j).shifts = []) ∧
        (∀ l, (dAt st j).last_shift = some l → ∀ s2 ∈ (dAt st j).shifts, s2 ≤ l)) := by
  constructor
  · intro mx mg rs doctors s e st1 k1 hmg hmx hok j hj
    obtain ⟨hr1, hr2, hr3⟩ := reset_inv mx hmx doctors
    obtain ⟨h1, h2, h3, h4, h5⟩ := assignAll_inv hmg hmx (dateRange s e)
      ⟨doctors.map resetDoc, []⟩ 0 st1 k1 (dateRange_pairwise s e)
      (by intro p hp; cases hp) hr1 hr2 hr3 hok
    exact ⟨(h1.docs j hj).last_none_iff,
      fun l hl => ⟨h2 j hj l hl, (h1.docs j hj).le_last l hl⟩⟩
  · intro mx mg rs doctors s e b st hmg hmx hok j hj
    obtain ⟨hinv, hk2, hk3, hk4⟩ := generate_inv hmg hmx hok
    exact ⟨(hinv.docs j hj).last_none_iff, (hinv.docs j hj).le_last⟩

set_option maxRecDepth 100000 in
theorem C6_last_shift_amended_witness :
    (0 : Int) ≤ 1 ∧ (1 : Int) ≤ 2 ∧
    generate_schedule rng0 twoDocs 0 1 2 1 = .ok (true, witState) ∧
    (∀ j, j < witState.doctors.length →
      ((dAt witState j).last_shift = none ↔ (dAt witState j).shifts = []) ∧
      (∀ l, (dAt witState j).last_shift = some l →
        ∀ s2 ∈ (dAt witState j).shifts, s2 ≤ l)) :=
  ⟨by decide, by decide, by decide,
    C6_last_shift_amended.2 2 1 rng0 twoDocs 0 1 true witState (by decide) (by decide)
      (by decide)⟩

/-- C7 fails on the code: there is no parameter validation.  With the
non-positive parameters `max_oncalls_per_week = 0` and
`min_days_between_oncalls = 0` the loop runs and the single weekday is
assigned; with an end date before the start date the run succeeds with
an empty schedule.  No error mentioning parameters exists. -/
theorem C7_no_parameter_validation_cex :
    generate_schedule rng0 [soloDoc] 0 0 0 0 =
      .ok (true, ⟨[⟨"Solo", "Team A", [0], some 0, [], []⟩], [(0, [0])]⟩) ∧
    generate_schedule rng0 [soloDoc] 5 4 0 (-3) = .ok (true, ⟨[soloDoc], []⟩) :=
  ⟨by decide, by decide⟩

/-- C7 (amended): the engine performs no validation of its scheduling
parameters: even with non-positive caps and gaps and an end date before
the start date, generation proceeds and reports success (with an empty
schedule for an inverted range) instead of raising a parameter error. -/
theorem C7_no_parameter_validation_amended (mx mg : Int) (rs : Nat → ℚ)
    (doctors : List Doc) (s e : Int)
    (hmx : mx ≤ 0) (hmg : mg ≤ 0) (hne : doctors ≠ []) (hlt : e < s) :
    generate_schedule rs doctors s e mx mg = .ok (true, ⟨doctors.map resetDoc, []⟩) :=
  generate_empty_range hne hlt

theorem C7_no_parameter_validation_amended_witness :
    (0 : Int) ≤ 0 ∧ (0 : Int) ≤ 0 ∧ ([soloDoc] : List Doc) ≠ [] ∧ (0 : Int) < 1 ∧
    generate_schedule rng0 [soloDoc] 1 0 0 0 = .ok (true, ⟨[soloDoc].map resetDoc, []⟩) :=
  ⟨by decide, by decide, by decide, by decide,
    C7_no_parameter_validation_amended 0 0 rng0 [soloDoc] 1 0 (by decide) (by decide)
      (by decide) (by decide)⟩

/-- C8 fails on the code: the jitter is `random.random() * 0.1`, an
absolute bound, not one relative to the deterministic score.  A doctor
whose deterministic score is exactly 0 (so the claimed bound is 0) can
receive the legal jitter `0.05`. -/
theorem C8_jitter_cex :
    fairness_score 30 jitterDoc = .fin 0 ∧
    (0 : ℚ) ≤ 1 / 2 ∧ (1 / 2 : ℚ) < 1 ∧
    ¬ (|jitterOf (1 / 2)| ≤ (1 / 10) * |(0 : ℚ)|) := by
  refine ⟨by decide, by decide, by decide, ?_⟩
  intro h
  rw [abs_zero, mul_zero, abs_le] at h
  have h2 := h.2
  unfold jitterOf at h2
  norm_num at h2

/-- C8 (amended): the jitter equals `r * 0.1` for a draw `r ∈ [0, 1)`,
so it lies in `[0, 0.1)`; whenever two candidates' deterministic scores
are finite and differ by at least `0.1`, the jittered sort key of the
better-scored candidate remains strictly greater, so the order cannot
flip. -/
theorem C8_jitter_amended :
    (∀ r : ℚ, 0 ≤ r → r < 1 → 0 ≤ jitterOf r ∧ jitterOf r < 1 / 10) ∧
    (∀ (d : Int) (doc1 doc2 : Doc) (s1 s2 r1 r2 : ℚ),
      fairness_score d doc1 = .fin s1 → fairness_score d doc2 = .fin s2 →
      0 ≤ r1 → r1 < 1 → 0 ≤ r2 → r2 < 1 → s2 + 1 / 10 ≤ s1 →
      keyGT (addJitter (fairness_score d doc1) r1)
        (addJitter (fairness_score d doc2) r2) = true) := by
  constructor
  · intro r h0 h1
    unfold jitterOf
    constructor
    · positivity
    · nlinarith
  · intro d doc1 doc2 s1 s2 r1 r2 h1 h2 hr1 hr1b hr2 hr2b hgap
    rw [h1, h2]
    unfold addJitter keyGT jitterOf
    simp only [decide_eq_true_eq]
    nlinarith

theorem C8_jitter_amended_witness :
    ((0 : ℚ) ≤ 1 / 2 ∧ (1 / 2 : ℚ) < 1 ∧
      0 ≤ jitterOf (1 / 2) ∧ jitterOf (1 / 2) < 1 / 10) ∧
    (fairness_score 30 jitterDoc = .fin 0 ∧ fairness_score 30 jitterDoc2 = .fin (-16) ∧
      (-16 : ℚ) + 1 / 10 ≤ 0 ∧
      keyGT (addJitter (fairness_score 30 jitterDoc) 0)
        (addJitter (fairness_score 30 jitterDoc2) (1 / 2)) = true) :=
  ⟨⟨by decide, by decide,
      (C8_jitter_amended.1 (1 / 2) (by decide) (by decide)).1,
      (C8_jitter_amended.1 (1 / 2) (by decide) (by decide)).2⟩,
    ⟨by decide, by decide, by decide,
      C8_jitter_amended.2 30 jitterDoc jitterDoc2 0 (-16) 0 (1 / 2)
        (by decide) (by decide) (by decide) (by decide) (by decide) (by decide)
        (by decide)⟩⟩

/-- C9 fails on the code as stated: with an empty roster and an end date
before the start date, `_balance_schedule` divides by the roster size
and the run raises a `ZeroDivisionError` instead of returning `True`
with an empty schedule (and that error is not an allocation error). -/
theorem C9_returns_true_cex :
    generate_schedule rng0 [] 1 0 2 3 = .error .zeroDiv ∧
    (∀ d : Int, Err.zeroDiv ≠ Err.allocWeekend d ∧ Err.zeroDiv ≠ Err.allocWeekday d) := by
  refine ⟨by decide, ?_⟩
  intro d
  constructor
  · intro h
    cases h
  · intro h
    cases h

/-- C9 (amended): `generate_schedule` never returns `False` — every
normal return carries `True` — and with a nonempty roster an inverted
date range yields `True` with an empty schedule; with an empty roster
the rebalancing pass raises a division error rather than an allocation
error. -/
theorem C9_returns_true_amended :
    (∀ (mx mg : Int) (rs : Nat → ℚ) (doctors : List Doc) (s e : Int)
      (p : Bool × SchedState),
      generate_schedule rs doctors s e mx mg = .ok p → p.1 = true) ∧
    (∀ (mx mg : Int) (rs : Nat → ℚ) (doctors : List Doc) (s e : Int),
      doctors ≠ [] → e < s →
      generate_schedule rs doctors s e mx mg =
        .ok (true, ⟨doctors.map resetDoc, []⟩)) :=
  ⟨fun mx mg rs doctors s e p h => generate_ok_fst h,
    fun mx mg rs doctors s e hne hlt => generate_empty_range hne hlt⟩

set_option maxRecDepth 100000 in
theorem C9_returns_true_amended_witness :
    generate_schedule rng0 twoDocs 0 1 2 1 = .ok (true, witState) ∧
    (true, witState).1 = true ∧
    ([soloDoc] : List Doc) ≠ [] ∧ (0 : Int) < 1 ∧
    generate_schedule rng0 [soloDoc] 1 0 2 3 = .ok (true, ⟨[soloDoc].map resetDoc, []⟩) :=
  ⟨by decide,
    C9_returns_true_amended.1 2 1 rng0 twoDocs 0 1 (true, witState) (by decide),
    by decide, by decide,
    C9_returns_true_amended.2 2 3 rng0 [soloDoc] 1 0 (by decide) (by decide)⟩

/-- C10: in the final schedule, rebalancing swaps included, the
assignees of every date are pairwise distinct, and indeed the
availability recheck used by the rebalancer rejects anyone whose
last-assigned date is on or after the date in question. -/
theorem C10_distinct_assignees (rs : Nat → ℚ) (doctors : List Doc) (s e mx mg : Int)
    (b : Bool) (st : SchedState) (hmg : 0 ≤ mg) (hmx : 1 ≤ mx)
    (hok : generate_schedule rs doctors s e mx mg = .ok (b, st)) :
    (∀ p ∈ st.sched, p.2.Nodup) ∧
    (∀ (doc : Doc) (d l : Int), doc.last_shift = some l → d ≤ l →
      is_available mx mg doc d = false) := by
  obtain ⟨hinv, h2, h3, h4⟩ := generate_inv hmg hmx hok
  exact ⟨hinv.slots_nodup, fun doc d l hl hld => is_available_stale hmg hl hld⟩

set_option maxRecDepth 100000 in
theorem C10_distinct_assignees_witness :
    (0 : Int) ≤ 1 ∧ (1 : Int) ≤ 2 ∧
    generate_schedule rng0 twoDocs 0 1 2 1 = .ok (true, witState) ∧
    ((∀ p ∈ witState.sched, p.2.Nodup) ∧
      (∀ (doc : Doc) (d l : Int), doc.last_shift = some l → d ≤ l →
        is_available 2 1 doc d = false)) :=
  ⟨by decide, by decide, by decide,
    C10_distinct_assignees rng0 twoDocs 0 1 2 1 true witState (by decide) (by decide)
      (by decide)⟩
